import Mathlib

/-!
Shallow embedding of the `xstd-js/mime-type` library
(`MIMEType` and `MIMETypeParameters` classes).

Strings are modelled as `List Char`; all functions are executable.
The parameter parser mirrors the global-regex scan of
`MIMETypeParameterRegExp` (`;\s*(T+)=(?:"((?:[^"\\]|\\"|\\[^"])+?)"|(T+))\s*`
with the `g` flag): `exec` finds the leftmost match at or after `lastIndex`,
the lazy `+?` body stops at the first closing quote, and the constructor
compares the end index of the last match with the input length.
-/

abbrev Str := List Char

abbrev MIMETypeParameterTuple := Str × Str

/-- Character class of `TOKEN_INNER_PATTERN`
(`0-9a-zA-Z\!\#\$\%\&'\*\+\-\.\^_\`\|\~`), written with character codes. -/
def isTokenChar (c : Char) : Bool :=
  (48 ≤ c.toNat && c.toNat ≤ 57) || (65 ≤ c.toNat && c.toNat ≤ 90) ||
  (97 ≤ c.toNat && c.toNat ≤ 122) ||
  c.toNat = 33 || c.toNat = 35 || c.toNat = 36 || c.toNat = 37 || c.toNat = 38 ||
  c.toNat = 39 || c.toNat = 42 || c.toNat = 43 || c.toNat = 45 || c.toNat = 46 ||
  c.toNat = 94 || c.toNat = 95 || c.toNat = 96 || c.toNat = 124 || c.toNat = 126

/-- Character class of the JavaScript regex `\s` (ECMA-262 WhiteSpace and
LineTerminator), as used by the `\s*` runs in `MIMETypeParameterRegExp`. -/
def isJsWhitespaceChar (c : Char) : Bool :=
  c.toNat = 9 || c.toNat = 10 || c.toNat = 11 || c.toNat = 12 || c.toNat = 13 ||
  c.toNat = 32 || c.toNat = 160 || c.toNat = 5760 ||
  (8192 ≤ c.toNat && c.toNat ≤ 8202) ||
  c.toNat = 8232 || c.toNat = 8233 || c.toNat = 8239 || c.toNat = 8287 ||
  c.toNat = 12288 || c.toNat = 65279

/-- Character class of `MIMETypeParameterValueRegExp`, `[\u0009 -~]`. -/
def isRestrictedTextChar (c : Char) : Bool :=
  c.toNat = 9 || (32 ≤ c.toNat && c.toNat ≤ 126)

/-- Test of `MIMETypeParameterKeyRegExp` (`^TOKEN+$`), also
`MIMETypeTypeRegExp` and `MIMETypeSubtypeRegExp` of the MIMEType file. -/
def isValidToken (s : Str) : Bool :=
  !s.isEmpty && s.all isTokenChar

/-- Test of `MIMETypeParameterValueRegExp` (`^[\u0009 -~]*$`). -/
def isValidRestrictedText (s : Str) : Bool :=
  s.all isRestrictedTextChar

/-! ## Parameter parsing (`MIMETypeParameterRegExp` global scan) -/

/-- Continuation of the lazy quoted body `((?:[^"\\]|\\"|\\[^"])+?)` after at
least one repetition has been consumed: the lazy quantifier closes at the
first unescaped `"`; otherwise one more repetition is consumed (a lone
backslash at the end of input fails, as does running out of input).
Returns the raw body (before unescaping) and the rest after the closing `"`. -/
def bodyRest : Str → Option (Str × Str)
  | [] => none
  | c :: r =>
    if c = '"' then some ([], r)
    else if c = '\\' then
      match r with
      | [] => none
      | c2 :: r2 => (bodyRest r2).map (fun br => (c :: c2 :: br.1, br.2))
    else (bodyRest r).map (fun br => (c :: br.1, br.2))

/-- Quoted body after the opening `"`: the `+?` requires at least one
repetition before the closing `"` may be tried (so `""` never matches). -/
def matchQuotedBody : Str → Option (Str × Str)
  | [] => none
  | c :: r =>
    if c = '"' then none
    else if c = '\\' then
      match r with
      | [] => none
      | c2 :: r2 => (bodyRest r2).map (fun br => (c :: c2 :: br.1, br.2))
    else (bodyRest r).map (fun br => (c :: br.1, br.2))

/-- Value alternative `(?:"((?:[^"\\]|\\"|\\[^"])+?)"|(T+))`.  In the
quoted-string case the constructor stores `match[2].replaceAll('\\', '')`,
removing every backslash of the raw body.  If the input starts with `"` the
token alternative cannot apply either (`"` is not a token character). -/
def matchValue : Str → Option (Str × Str)
  | [] => none
  | c :: r =>
    if c = '"' then
      match matchQuotedBody r with
      | some (body, rest) => some (body.filter (fun x => x ≠ '\\'), rest)
      | none => none
    else
      let tok := (c :: r).takeWhile isTokenChar
      if tok.isEmpty then none else some (tok, (c :: r).dropWhile isTokenChar)

/-- Attempt of the whole pattern `;\s*(T+)=(value)\s*` anchored at the head of
the input; returns the captured (key, value) pair and the unconsumed rest. -/
def matchParamAt : Str → Option ((Str × Str) × Str)
  | [] => none
  | c :: rest =>
    if c = ';' then
      let r1 := rest.dropWhile isJsWhitespaceChar
      let key := r1.takeWhile isTokenChar
      let r2 := r1.dropWhile isTokenChar
      if key.isEmpty then none
      else if r2.head? = some '=' then
        match matchValue r2.tail with
        | some (v, r4) => some ((key, v), r4.dropWhile isJsWhitespaceChar)
        | none => none
      else none
    else none

/-- Leftmost match search of `RegExp.exec` from the current position:
the pattern is tried at each successive index until it matches.
Returns the pair, the number of characters skipped before the match start,
the match length, and the rest after the match. -/
def findMatch : Str → Option ((Str × Str) × Nat × Nat × Str)
  | [] => none
  | c :: r =>
    match matchParamAt (c :: r) with
    | some (kv, rest) => some (kv, 0, (c :: r).length - rest.length, rest)
    | none => (findMatch r).map (fun m => (m.1, m.2.1 + 1, m.2.2.1, m.2.2.2))

/-- Driver of the `while ((match = MIMETypeParameterRegExp.exec(init)) !== null)`
loop.  `pos` is the absolute position of the remaining input, `idx` the
`index` variable (end of the last match, initially 0), `consumed` instruments
the total length of all matches (used to express the specification's
"the scan consumed the entire input"; it is not part of the source state),
and `acc` the tuples pushed so far.  Each iteration consumes at least the
`;` of the match, so the fuel `input.length + 1` never runs out. -/
def scanLoopF : Nat → Str → Nat → Nat → Nat → List MIMETypeParameterTuple →
    Nat × Nat × List MIMETypeParameterTuple
  | 0, _, _, idx, consumed, acc => (idx, consumed, acc)
  | fuel + 1, l, pos, idx, consumed, acc =>
    match findMatch l with
    | none => (idx, consumed, acc)
    | some (kv, skipped, mlen, rest) =>
      scanLoopF fuel rest (pos + skipped + mlen) (pos + skipped + mlen)
        (consumed + mlen) (acc ++ [kv])

/-- Whole-input scan: returns the final `index`, the total matched length,
and the tuple list. -/
def scanParams (init : Str) : Nat × Nat × List MIMETypeParameterTuple :=
  scanLoopF (init.length + 1) init 0 0 0 []

/-- Leading-separator insertion: `if (!init.startsWith(';')) init = ';' + init`. -/
def addLeadingSeparator (s : Str) : Str :=
  if s.head? = some ';' then s else ';' :: s

/-- Hexadecimal digit (lowercase), for JSON `\u00XX` escapes. -/
def hexDigit (n : Nat) : Char :=
  Char.ofNat (if n < 10 then 48 + n else 87 + (n % 16))

/-- Escape of one character under `JSON.stringify` for strings. -/
def jsonEscapeChar (c : Char) : Str :=
  if c = '"' then ['\\', '"']
  else if c = '\\' then ['\\', '\\']
  else if c.toNat = 8 then ['\\', 'b']
  else if c.toNat = 9 then ['\\', 't']
  else if c.toNat = 10 then ['\\', 'n']
  else if c.toNat = 12 then ['\\', 'f']
  else if c.toNat = 13 then ['\\', 'r']
  else if c.toNat < 32 then ['\\', 'u', '0', '0', hexDigit (c.toNat / 16), hexDigit (c.toNat % 16)]
  else [c]

/-- Character-wise expansion map (used for `String.prototype.replaceAll` with a
single-character search string, and for escape maps). -/
def perCharMap (f : Char → Str) : Str → Str
  | [] => []
  | c :: r => f c ++ perCharMap f r

/-- Model of `JSON.stringify` applied to a string value. -/
def jsonStringifyStr (l : Str) : Str :=
  '"' :: perCharMap jsonEscapeChar l ++ ['"']

/-- Error message `Parameters ${JSON.stringify(snippet + maybeEllipsis)} are not valid.` -/
def mkNotValidMessage (snippet : Str) (truncated : Bool) : Str :=
  ("Parameters ".toList) ++
    jsonStringifyStr (snippet ++ (if truncated then "...".toList else [])) ++
    (" are not valid.".toList)

/-- String branch of the `MIMETypeParameters` constructor (`#from` of the
part_003 variant; the same scan-and-check appears in
`src/mime-type-parameters/mime-type-parameters.ts`): empty input gives the
empty list; otherwise a `;` is prepended when absent, the global scan is run,
and the end index of the last match must equal the input length, else the
`Parameters ... are not valid.` error is thrown with the first 30 characters
of the unconsumed tail (`init.slice(index, index + 30)`), `...`-suffixed
when `index + 30 < init.length`. -/
def MIMETypeParameters.fromString (s : Str) : Except Str (List MIMETypeParameterTuple) :=
  if s.isEmpty then .ok []
  else
    let init := addLeadingSeparator s
    let r := scanParams init
    if r.1 = init.length then .ok r.2.2
    else .error (mkNotValidMessage ((init.drop r.1).take 30) (decide (r.1 + 30 < init.length)))

/-! ## Validation and the mutator API (part_003 variant) -/

/-- Message of `checkMIMETypeParameterKey`. -/
def invalidKeyMessage : Str := "Invalid parameter key".toList

/-- Message of `checkMIMETypeParameterValue` (the source also says
"Invalid parameter key" there). -/
def invalidValueMessage : Str := "Invalid parameter key".toList

/-- Model of `checkAndNormalizeMIMETypeParameterKey`: validate against
`^TOKEN+$` and lowercase. -/
def checkAndNormalizeMIMETypeParameterKey (k : Str) : Except Str Str :=
  if isValidToken k then .ok (k.map Char.toLower) else .error invalidKeyMessage

/-- Model of `checkAndNormalizeMIMETypeParameterValue` (no normalization;
`undefined` passes through unchecked). -/
def checkAndNormalizeMIMETypeParameterValue (v : Option Str) : Except Str (Option Str) :=
  match v with
  | none => .ok none
  | some s => if isValidRestrictedText s then .ok (some s) else .error invalidValueMessage

/-- Tuple match used by `#delete` and `#has`:
`_key === key && (value === undefined || _value == value)`. -/
def tupleMatches (k : Str) (v : Option Str) (t : MIMETypeParameterTuple) : Bool :=
  t.1 = k && (match v with | none => true | some s => t.2 = s)

/-- Effect of the `#delete` splice loop (remove every matching tuple,
preserving the order of the others). -/
def deleteLoop (k : Str) (v : Option Str) : List MIMETypeParameterTuple →
    List MIMETypeParameterTuple
  | [] => []
  | t :: ts => if tupleMatches k v t then deleteLoop k v ts else t :: deleteLoop k v ts

/-- Public `append`: validate, normalize the key, push at the end. -/
def MIMETypeParameters.append (ps : List MIMETypeParameterTuple) (k v : Str) :
    Except Str (List MIMETypeParameterTuple) := do
  let nk ← checkAndNormalizeMIMETypeParameterKey k
  let _ ← checkAndNormalizeMIMETypeParameterValue (some v)
  return ps ++ [(nk, v)]

/-- Public `set` (part_003 `#set`): validate and normalize, delete every
tuple stored under the normalized key (value unrestricted), then append the
new tuple at the end. -/
def MIMETypeParameters.set (ps : List MIMETypeParameterTuple) (k v : Str) :
    Except Str (List MIMETypeParameterTuple) := do
  let nk ← checkAndNormalizeMIMETypeParameterKey k
  let _ ← checkAndNormalizeMIMETypeParameterValue (some v)
  return deleteLoop nk none ps ++ [(nk, v)]

/-- Iterable and mapping construction branches of `#from` (part_003): both
the `Symbol.iterator` loop and the `Object.entries(...).forEach` loop call
the public `append` once per key/value pair, in order, starting from the
empty list; the two paths differ only in how the pair sequence is obtained. -/
def MIMETypeParameters.fromPairsAux (acc : List MIMETypeParameterTuple) :
    List (Str × Str) → Except Str (List MIMETypeParameterTuple)
  | [] => .ok acc
  | p :: rest => do
    let acc2 ← MIMETypeParameters.append acc p.1 p.2
    MIMETypeParameters.fromPairsAux acc2 rest

/-- Construction from a sequence of key/value pairs (iterable or mapping
input), appending each pair in order. -/
def MIMETypeParameters.fromPairs (pairs : List (Str × Str)) :
    Except Str (List MIMETypeParameterTuple) :=
  MIMETypeParameters.fromPairsAux [] pairs

/-- Public `delete` of the part_003 variant (returns the updated list; the
source method returns `undefined`). -/
def MIMETypeParameters.delete (ps : List MIMETypeParameterTuple) (k : Str) (v : Option Str) :
    Except Str (List MIMETypeParameterTuple) := do
  let nk ← checkAndNormalizeMIMETypeParameterKey k
  let nv ← checkAndNormalizeMIMETypeParameterValue v
  return deleteLoop nk nv ps

/-- Modelled from the spec: the `delete` of the `@xstd/mapped-list`-based
`MIMETypeParameters` variant, whose implementation is not under `src/` (only
its callers and tests are).  Per the spec table, it "removes every tuple
matching `k` (and `v` if supplied); returns the number removed"; the removal
semantics are those of the in-repo part_003 splice loop. -/
def MIMETypeParameters.deleteCounting (ps : List MIMETypeParameterTuple) (k : Str)
    (v : Option Str) : Except Str (Nat × List MIMETypeParameterTuple) := do
  let nk ← checkAndNormalizeMIMETypeParameterKey k
  let nv ← checkAndNormalizeMIMETypeParameterValue v
  let kept := deleteLoop nk nv ps
  return (ps.length - kept.length, kept)

/-- Public `get`: first value stored under the normalized key, else `null`. -/
def MIMETypeParameters.get (ps : List MIMETypeParameterTuple) (k : Str) :
    Except Str (Option Str) := do
  let nk ← checkAndNormalizeMIMETypeParameterKey k
  return (ps.find? (fun t => t.1 = nk)).map (fun t => t.2)

/-- Public `getAll`: every value stored under the normalized key, in order. -/
def MIMETypeParameters.getAll (ps : List MIMETypeParameterTuple) (k : Str) :
    Except Str (List Str) := do
  let nk ← checkAndNormalizeMIMETypeParameterKey k
  return (ps.filter (fun t => t.1 = nk)).map (fun t => t.2)

/-- Public `has`. -/
def MIMETypeParameters.has (ps : List MIMETypeParameterTuple) (k : Str) (v : Option Str) :
    Except Str Bool := do
  let nk ← checkAndNormalizeMIMETypeParameterKey k
  let nv ← checkAndNormalizeMIMETypeParameterValue v
  return ps.any (tupleMatches nk nv)

/-- JavaScript string comparison `keyA < keyB` (lexicographic by code unit;
parameter keys are ASCII tokens, so code-unit and code-point order agree). -/
def strLt : Str → Str → Bool
  | [], [] => false
  | [], _ :: _ => true
  | _ :: _, [] => false
  | a :: as, b :: bs =>
    if a.toNat < b.toNat then true
    else if b.toNat < a.toNat then false
    else strLt as bs

/-- Stable insertion used to model `Array.prototype.sort` with the key
comparator of `MIMETypeParameters.sort`: ECMAScript sort is stable, so its
result is the unique permutation that is sorted by key and preserves the
relative order of equal keys; stable insertion produces exactly that list. -/
def insertSorted (t : MIMETypeParameterTuple) : List MIMETypeParameterTuple →
    List MIMETypeParameterTuple
  | [] => [t]
  | u :: us => if strLt u.1 t.1 then u :: insertSorted t us else t :: u :: us

/-- Public `sort`: stable sort by key in code-point order. -/
def MIMETypeParameters.sort (ps : List MIMETypeParameterTuple) :
    List MIMETypeParameterTuple :=
  ps.foldr insertSorted []

/-- Call list of `forEach` in the part_003 variant: the source invokes
`callback(this.#parameters[i][0], this.#parameters[i][1], this)`, i.e. the
KEY is passed as the first argument and the value as the second (while the
declared callback type names the first parameter `value`). -/
def MIMETypeParameters.forEachCalls (ps : List MIMETypeParameterTuple) :
    List (Str × Str × List MIMETypeParameterTuple) :=
  ps.map (fun t => (t.1, t.2, ps))

/-! ## Serialization (`MIMETypeParameters.toString`) -/

/-- Model of `String.prototype.replaceAll` with a single-character search
string (every occurrence is independent, no overlap). -/
def replAll (p : Char) (r : Str) (l : Str) : Str :=
  perCharMap (fun c => if c = p then r else [c]) l

/-- Escaping applied inside quotes:
`value.replaceAll('\\', '\\\\').replaceAll('"', '\\"')`. -/
def escapeValue (v : Str) : Str :=
  replAll '"' ['\\', '"'] (replAll '\\' ['\\', '\\'] v)

/-- Character-wise view of the quoting escapes: a backslash or double quote
is preceded by a backslash, every other character stands alone. -/
def escUnit (c : Char) : Str :=
  if c = '\\' then ['\\', '\\'] else if c = '"' then ['\\', '"'] else [c]

/-- Serialized form of one value:
`value === '' || MIMETypeParameterValueRequiringQuotingRegExp.test(value)`
selects the quoted form (the regex `[^TOKEN_INNER]` tests for any character
outside the token set), else the value is emitted bare. -/
def serializeValue (v : Str) : Str :=
  if v.isEmpty || v.any (fun c => !isTokenChar c) then '"' :: escapeValue v ++ ['"']
  else v

/-- Serialized form of one tuple including its `"; "` separator. -/
def serializedParam (t : MIMETypeParameterTuple) : Str :=
  ';' :: ' ' :: t.1 ++ '=' :: serializeValue t.2

/-- Model of `MIMETypeParameters.toString`: iterate the entries, emitting
`"; "` before a tuple when output was already produced or the leading
separator was requested, then `key=value` with quoting as needed. -/
def MIMETypeParameters.toString (ps : List MIMETypeParameterTuple)
    (includeLeadingSeparator : Bool) : Str :=
  ps.foldl
    (fun out t =>
      (if !out.isEmpty || includeLeadingSeparator then out ++ [';', ' '] else out) ++
        t.1 ++ '=' :: serializeValue t.2)
    []

/-! ## MIMEType -/

/-- Split before the first occurrence of `c` (mirrors `input.indexOf(c)` +
two `slice` calls); the second component starts with `c` itself. -/
def splitBeforeFirst (c : Char) : Str → Option (Str × Str)
  | [] => none
  | x :: xs =>
    if x = c then some ([], x :: xs)
    else (splitBeforeFirst c xs).map (fun p => (x :: p.1, p.2))

/-- Parameter-list state: the tuple list together with the immutability flag.
The flag's machinery lives in `@xstd/mapped-list` / `@xstd/with-immutability`
(not under `src/`); it is modelled from the spec: initially false, set once
by `makeImmutable`, and every mutating operation fails when it is set. -/
structure MIMETypeParametersState where
  list : List MIMETypeParameterTuple
  immutable : Bool
deriving DecidableEq, Repr

/-- MIMEType state: validated type and subtype tokens, the owned parameter
list, and the immutability flag (modelled from the spec, see
`MIMETypeParametersState`). -/
structure MIMEType where
  type : Str
  subtype : Str
  parameters : MIMETypeParametersState
  immutable : Bool
deriving DecidableEq, Repr

/-- Message of the part_001 constructor and `typeAndSubtype` setter. -/
def missingSubtypeMessage : Str := "Invalid MimeType: missing subtype.".toList

/-- Message of `validateMIMETypeType`. -/
def invalidTypeMessage (t : Str) : Str := "Invalid type: ".toList ++ t

/-- Message of `validateMIMETypeSubtype`. -/
def invalidSubtypeMessage (t : Str) : Str := "Invalid subtype: ".toList ++ t

/-- Modelled from the spec: the immutability error of
`@xstd/with-immutability`'s `throwIfImmutable` (implementation not under
`src/`; the spec names the `immutable` error subcategory). -/
def immutableMessage : Str := "immutable".toList

/-- Constructor of `MIMEType` (part_001): split at the first `;` (the tail,
including the `;`, goes to the parameter parser), split the head at the first
`/` (absence is the missing-subtype error), validate both tokens, then parse
the parameters.  Fresh instances are mutable. -/
def MIMEType.fromString (input : Str) : Except Str MIMEType := do
  let headTail :=
    match splitBeforeFirst ';' input with
    | none => (input, ([] : Str))
    | some p => p
  match splitBeforeFirst '/' headTail.1 with
  | none => .error missingSubtypeMessage
  | some (ty, slashSub) =>
    let sub := slashSub.tail
    if !isValidToken ty then .error (invalidTypeMessage ty)
    else if !isValidToken sub then .error (invalidSubtypeMessage sub)
    else do
      let ps ← MIMETypeParameters.fromString headTail.2
      return { type := ty, subtype := sub,
               parameters := { list := ps, immutable := false }, immutable := false }

/-- Model of `MIMEType.toString`:
`${type}/${subtype}${parameters.toString({ includeLeadingSeparator: true })}`. -/
def MIMEType.toString (m : MIMEType) : Str :=
  m.type ++ '/' :: m.subtype ++ MIMETypeParameters.toString m.parameters.list true

/-- Effect of `makeImmutable` on a MIMEType: sets the flag and propagates to
the owned parameter list (modelled from the spec; irreversible by
construction since no operation clears a flag). -/
def MIMEType.lock (m : MIMEType) : MIMEType :=
  { m with immutable := true,
           parameters := { m.parameters with immutable := true } }

/-- Operations of the MIMEType API (including the parameter-list mutators
reached through `.parameters`), for stating the immutability closure. -/
inductive MTOp where
  | setType (s : Str)
  | setSubtype (s : Str)
  | setTypeAndSubtype (s : Str)
  | makeImmutable
  | paramsAppend (k v : Str)
  | paramsSet (k v : Str)
  | paramsDelete (k : Str) (v : Option Str)
  | paramsClear
  | paramsSort
  | paramsMakeImmutable

/-- Classification: every operation above mutates except the two
`makeImmutable` (which the spec marks idempotent, never failing). -/
def MTOp.isMutator : MTOp → Bool
  | .makeImmutable => false
  | .paramsMakeImmutable => false
  | _ => true

/-- One step of the API.  The type/subtype setters follow part_001 exactly:
`throwIfImmutable()` first, then validation, then assignment.  The
parameter mutators follow part_003 for their list effect, guarded by the
spec-modelled immutability flag of the parameter list (locked in concert
with the MIMEType). -/
def MIMEType.step (op : MTOp) (m : MIMEType) : Except Str MIMEType :=
  match op with
  | .setType s =>
    if m.immutable then .error immutableMessage
    else if isValidToken s then .ok { m with type := s }
    else .error (invalidTypeMessage s)
  | .setSubtype s =>
    if m.immutable then .error immutableMessage
    else if isValidToken s then .ok { m with subtype := s }
    else .error (invalidSubtypeMessage s)
  | .setTypeAndSubtype s =>
    if m.immutable then .error immutableMessage
    else
      match splitBeforeFirst '/' s with
      | none => .error missingSubtypeMessage
      | some (ty, slashSub) =>
        let sub := slashSub.tail
        if !isValidToken ty then .error (invalidTypeMessage ty)
        else if !isValidToken sub then .error (invalidSubtypeMessage sub)
        else .ok { m with type := ty, subtype := sub }
  | .makeImmutable => .ok m.lock
  | .paramsAppend k v =>
    if m.parameters.immutable then .error immutableMessage
    else do
      let l ← MIMETypeParameters.append m.parameters.list k v
      return { m with parameters := { m.parameters with list := l } }
  | .paramsSet k v =>
    if m.parameters.immutable then .error immutableMessage
    else do
      let nk ← checkAndNormalizeMIMETypeParameterKey k
      let _ ← checkAndNormalizeMIMETypeParameterValue (some v)
      return { m with parameters :=
        { m.parameters with list := deleteLoop nk none m.parameters.list ++ [(nk, v)] } }
  | .paramsDelete k v =>
    if m.parameters.immutable then .error immutableMessage
    else do
      let l ← MIMETypeParameters.delete m.parameters.list k v
      return { m with parameters := { m.parameters with list := l } }
  | .paramsClear =>
    if m.parameters.immutable then .error immutableMessage
    else .ok { m with parameters := { m.parameters with list := [] } }
  | .paramsSort =>
    if m.parameters.immutable then .error immutableMessage
    else .ok { m with parameters :=
      { m.parameters with list := MIMETypeParameters.sort m.parameters.list } }
  | .paramsMakeImmutable =>
    .ok { m with parameters := { m.parameters with immutable := true } }

/-- Success test for `Except` results. -/
def exceptIsOk {ε α : Type} : Except ε α → Bool
  | .ok _ => true
  | .error _ => false

instance {ε α : Type} [DecidableEq ε] [DecidableEq α] : DecidableEq (Except ε α) :=
  fun x y =>
    match x, y with
    | .ok a, .ok b =>
      if h : a = b then .isTrue (by rw [h])
      else .isFalse (by intro hc; cases hc; exact h rfl)
    | .error a, .error b =>
      if h : a = b then .isTrue (by rw [h])
      else .isFalse (by intro hc; cases hc; exact h rfl)
    | .ok _, .error _ => .isFalse (by intro hc; cases hc)
    | .error _, .ok _ => .isFalse (by intro hc; cases hc)

/-- Concatenation of the serialized parameters, the shape of
`toString` output when the leading separator is requested. -/
def serializedParamsConcat : List MIMETypeParameterTuple → Str
  | [] => []
  | t :: ts => serializedParam t ++ serializedParamsConcat ts

/-- Shape every tuple produced by the string parser has (with, additionally,
a nonempty value): nonempty token key, value free of backslashes. -/
def wfTuple (t : MIMETypeParameterTuple) : Prop :=
  t.1 ≠ [] ∧ t.1.all isTokenChar = true ∧
    t.2.all (fun c => c ≠ '\\') = true ∧ t.2 ≠ []

/-- Input remaining after the end of the last regex match of the scan
(`init.slice(index)` in the source's error path). -/
def unconsumedTail (init : Str) : Str :=
  init.drop (scanParams init).1

/-! ## Character-class facts -/

theorem isTokenChar_ne_ws {c : Char} (h : isTokenChar c = true) :
    isJsWhitespaceChar c = false := by
  by_contra hw
  rw [Bool.not_eq_false] at hw
  simp only [isTokenChar, Bool.or_eq_true, Bool.and_eq_true, decide_eq_true_eq] at h
  simp only [isJsWhitespaceChar, Bool.or_eq_true, Bool.and_eq_true, decide_eq_true_eq] at hw
  omega

theorem ws_not_token {c : Char} (h : isJsWhitespaceChar c = true) :
    isTokenChar c = false := by
  by_contra ht
  rw [Bool.not_eq_false] at ht
  exact absurd (isTokenChar_ne_ws ht) (by simp [h])

theorem isTokenChar_ne_semi {c : Char} (h : isTokenChar c = true) : c ≠ ';' := by
  intro he; rw [he] at h; exact absurd h (by decide)

theorem isTokenChar_ne_eq {c : Char} (h : isTokenChar c = true) : c ≠ '=' := by
  intro he; rw [he] at h; exact absurd h (by decide)

theorem isTokenChar_ne_quote {c : Char} (h : isTokenChar c = true) : c ≠ '"' := by
  intro he; rw [he] at h; exact absurd h (by decide)

theorem isTokenChar_ne_backslash {c : Char} (h : isTokenChar c = true) : c ≠ '\\' := by
  intro he; rw [he] at h; exact absurd h (by decide)

theorem isTokenChar_ne_slash {c : Char} (h : isTokenChar c = true) : c ≠ '/' := by
  intro he; rw [he] at h; exact absurd h (by decide)

/-! ## List helper lemmas -/

theorem takeWhile_all_append {p : Char → Bool} {l r : Str} (h : l.all p = true)
    (hr : ∀ c, r.head? = some c → p c = false) : (l ++ r).takeWhile p = l := by
  induction l with
  | nil =>
    simp only [List.nil_append]
    cases r with
    | nil => rfl
    | cons c cs => simp [List.takeWhile_cons, hr c rfl]
  | cons a l ih =>
    simp only [List.all_cons, Bool.and_eq_true] at h
    simp [List.takeWhile_cons, h.1, ih h.2]

theorem dropWhile_all_append {p : Char → Bool} {l r : Str} (h : l.all p = true)
    (hr : ∀ c, r.head? = some c → p c = false) : (l ++ r).dropWhile p = r := by
  induction l with
  | nil =>
    simp only [List.nil_append]
    cases r with
    | nil => rfl
    | cons c cs => simp [List.dropWhile_cons, hr c rfl]
  | cons a l ih =>
    simp only [List.all_cons, Bool.and_eq_true] at h
    simp [List.dropWhile_cons, h.1, ih h.2]

theorem dropWhile_head_neg {p : Char → Bool} {l : Str}
    (h : ∀ c, l.head? = some c → p c = false) : l.dropWhile p = l := by
  cases l with
  | nil => rfl
  | cons c cs => simp [List.dropWhile_cons, h c rfl]

theorem perCharMap_append (f : Char → Str) (a b : Str) :
    perCharMap f (a ++ b) = perCharMap f a ++ perCharMap f b := by
  induction a with
  | nil => rfl
  | cons c a ih => simp [perCharMap, ih]

theorem length_le_perCharMap {f : Char → Str} (hf : ∀ c, 1 ≤ (f c).length) (l : Str) :
    l.length ≤ (perCharMap f l).length := by
  induction l with
  | nil => simp [perCharMap]
  | cons c l ih =>
    simp only [perCharMap, List.length_cons, List.length_append]
    have := hf c
    omega

/-! ## Escaping lemmas -/

theorem replAll_cons (p : Char) (r : Str) (c : Char) (l : Str) :
    replAll p r (c :: l) = (if c = p then r else [c]) ++ replAll p r l := rfl

theorem replAll_append (p : Char) (r a b : Str) :
    replAll p r (a ++ b) = replAll p r a ++ replAll p r b :=
  perCharMap_append _ a b

theorem escapeValue_eq_perCharMap (v : Str) : escapeValue v = perCharMap escUnit v := by
  induction v with
  | nil => rfl
  | cons c v ih =>
    unfold escapeValue at ih ⊢
    rw [replAll_cons '\\' _ c v, replAll_append, ih]
    show _ ++ _ = escUnit c ++ perCharMap escUnit v
    congr 1
    by_cases hb : c = '\\'
    · subst hb; decide
    · rw [if_neg hb]
      by_cases hq : c = '"'
      · subst hq; decide
      · unfold escUnit
        rw [if_neg hb, if_neg hq, replAll_cons, if_neg hq]
        rfl

theorem escUnit_length (c : Char) : 1 ≤ (escUnit c).length := by
  unfold escUnit
  split
  · simp
  · split <;> simp

theorem filter_perCharMap_escUnit {v : Str} (h : v.all (fun c => c ≠ '\\') = true) :
    (perCharMap escUnit v).filter (fun c => c ≠ '\\') = v := by
  induction v with
  | nil => rfl
  | cons c v ih =>
    simp only [List.all_cons, Bool.and_eq_true, decide_eq_true_eq] at h
    simp only [perCharMap, List.filter_append, ih h.2]
    have hc : List.filter (fun c => decide (c ≠ '\\')) (escUnit c) = [c] := by
      unfold escUnit
      rw [if_neg h.1]
      by_cases hq : c = '"'
      · subst hq; decide
      · rw [if_neg hq]
        simp [List.filter, h.1]
    rw [hc]
    rfl

/-! ## Lexicographic key order lemmas -/

theorem strLt_irrefl (a : Str) : strLt a a = false := by
  induction a with
  | nil => rfl
  | cons c as ih => simp [strLt, lt_irrefl, ih]

theorem strLt_asymm {a b : Str} (h : strLt a b = true) : strLt b a = false := by
  induction a generalizing b with
  | nil =>
    cases b with
    | nil => exact absurd h (by simp [strLt])
    | cons d bs => rfl
  | cons c as ih =>
    cases b with
    | nil => exact absurd h (by simp [strLt])
    | cons d bs =>
      unfold strLt at h ⊢
      by_cases h1 : c.toNat < d.toNat
      · rw [if_neg (by omega), if_pos h1]
      · rw [if_neg h1] at h
        by_cases h2 : d.toNat < c.toNat
        · rw [if_pos h2] at h
          exact absurd h (by simp)
        · rw [if_neg h2] at h
          rw [if_neg h2, if_neg h1]
          exact ih h

theorem strLt_false_trans {a b c : Str} (hab : strLt a b = false)
    (hbc : strLt b c = false) : strLt a c = false := by
  induction a generalizing b c with
  | nil =>
    cases b with
    | nil => exact hbc
    | cons y bs => exact absurd hab (by simp [strLt])
  | cons x as ih =>
    cases c with
    | nil => rfl
    | cons z cs =>
      cases b with
      | nil => exact absurd hbc (by simp [strLt])
      | cons y bs =>
        unfold strLt at hab hbc ⊢
        by_cases h1 : x.toNat < y.toNat
        · rw [if_pos h1] at hab
          exact absurd hab (by simp)
        · rw [if_neg h1] at hab
          by_cases h2 : y.toNat < z.toNat
          · rw [if_pos h2] at hbc
            exact absurd hbc (by simp)
          · rw [if_neg h2] at hbc
            rw [if_neg (show ¬ x.toNat < z.toNat by omega)]
            by_cases h3 : y.toNat < x.toNat
            · rw [if_pos (show z.toNat < x.toNat by omega)]
            · rw [if_neg h3] at hab
              by_cases h4 : z.toNat < y.toNat
              · rw [if_pos (show z.toNat < x.toNat by omega)]
              · rw [if_neg h4] at hbc
                by_cases h5 : z.toNat < x.toNat
                · rw [if_pos h5]
                · rw [if_neg h5]
                  exact ih hab hbc

/-! ## Stable sort lemmas -/

theorem insertSorted_perm (t : MIMETypeParameterTuple) (l : List MIMETypeParameterTuple) :
    List.Perm (insertSorted t l) (t :: l) := by
  induction l with
  | nil => exact List.Perm.refl _
  | cons u us ih =>
    unfold insertSorted
    by_cases h : strLt u.1 t.1
    · rw [if_pos h]
      exact (ih.cons u).trans (List.Perm.swap t u us)
    · rw [if_neg h]

theorem mem_insertSorted {x t : MIMETypeParameterTuple} {l : List MIMETypeParameterTuple}
    (h : x ∈ insertSorted t l) : x = t ∨ x ∈ l := by
  have := (insertSorted_perm t l).mem_iff.mp h
  simpa using this

theorem pairwise_insertSorted (t : MIMETypeParameterTuple)
    {l : List MIMETypeParameterTuple}
    (hl : List.Pairwise (fun a b : MIMETypeParameterTuple => strLt b.1 a.1 = false) l) :
    List.Pairwise (fun a b : MIMETypeParameterTuple => strLt b.1 a.1 = false)
      (insertSorted t l) := by
  induction l with
  | nil => simp [insertSorted]
  | cons u us ih =>
    rcases List.pairwise_cons.mp hl with ⟨hu, hus⟩
    unfold insertSorted
    by_cases h : strLt u.1 t.1 = true
    · rw [if_pos h]
      refine List.pairwise_cons.mpr ⟨?_, ih hus⟩
      intro x hx
      rcases mem_insertSorted hx with rfl | hx2
      · exact strLt_asymm h
      · exact hu x hx2
    · rw [if_neg h]
      rw [Bool.not_eq_true] at h
      refine List.pairwise_cons.mpr ⟨?_, hl⟩
      intro x hx
      rcases List.mem_cons.mp hx with rfl | hx2
      · exact h
      · exact strLt_false_trans (hu x hx2) h

theorem filter_insertSorted (t : MIMETypeParameterTuple) (l : List MIMETypeParameterTuple)
    (k : Str) :
    (insertSorted t l).filter (fun u => u.1 = k) =
      (if t.1 = k then [t] else []) ++ l.filter (fun u => u.1 = k) := by
  induction l with
  | nil =>
    by_cases ht : t.1 = k <;> simp [insertSorted, List.filter, ht]
  | cons u us ih =>
    unfold insertSorted
    by_cases h : strLt u.1 t.1 = true
    · rw [if_pos h]
      by_cases hu : u.1 = k
      · by_cases ht : t.1 = k
        · rw [hu, ← ht] at h
          exact absurd h (by simp [strLt_irrefl])
        · simp [List.filter, hu, ht, ih]
      · simp [List.filter, hu, ih]
    · rw [if_neg h]
      by_cases ht : t.1 = k <;> simp [List.filter, ht]

theorem sort_filter (ps : List MIMETypeParameterTuple) (k : Str) :
    (MIMETypeParameters.sort ps).filter (fun u => u.1 = k) =
      ps.filter (fun u => u.1 = k) := by
  induction ps with
  | nil => rfl
  | cons t ts ih =>
    show (insertSorted t (MIMETypeParameters.sort ts)).filter _ = _
    rw [filter_insertSorted, ih]
    by_cases ht : t.1 = k <;> simp [List.filter, ht]

/-- C9: `sort()` reorders the tuples into ascending key order (code-point
comparison), tuples move as whole pairs (the result is a permutation), and
the sort is stable: tuples with any fixed key keep their original relative
order. -/
theorem claim9_sort_stable (ps : List MIMETypeParameterTuple) :
    List.Perm (MIMETypeParameters.sort ps) ps ∧
    List.Pairwise (fun a b : MIMETypeParameterTuple => strLt b.1 a.1 = false)
      (MIMETypeParameters.sort ps) ∧
    ∀ k : Str, (MIMETypeParameters.sort ps).filter (fun u => u.1 = k) =
      ps.filter (fun u => u.1 = k) := by
  refine ⟨?_, ?_, fun k => sort_filter ps k⟩
  · induction ps with
    | nil => exact List.Perm.refl _
    | cons t ts ih =>
      exact ((insertSorted_perm t (MIMETypeParameters.sort ts)).trans (ih.cons t))
  · induction ps with
    | nil => simp [MIMETypeParameters.sort]
    | cons t ts ih => exact pairwise_insertSorted t ih

/-! ## Reparse lemmas for serialized values and parameters -/

theorem bodyRest_quote (r : Str) : bodyRest ('"' :: r) = some ([], r) := by
  cases r <;> (rw [bodyRest]; simp)

theorem bodyRest_backslash (c2 : Char) (r2 : Str) :
    bodyRest ('\\' :: c2 :: r2) =
      (bodyRest r2).map (fun br => ('\\' :: c2 :: br.1, br.2)) := by
  rw [bodyRest]
  simp

theorem bodyRest_plain {c : Char} (r : Str) (hq : c ≠ '"') (hb : c ≠ '\\') :
    bodyRest (c :: r) = (bodyRest r).map (fun br => (c :: br.1, br.2)) := by
  cases r <;> (rw [bodyRest]; simp [bodyRest, hq, hb])

theorem bodyRest_esc {v : Str} (rest : Str) (h : v.all (fun c => c ≠ '\\') = true) :
    bodyRest (perCharMap escUnit v ++ '"' :: rest) = some (perCharMap escUnit v, rest) := by
  induction v with
  | nil =>
    show bodyRest ('"' :: rest) = some ([], rest)
    exact bodyRest_quote rest
  | cons c v ih =>
    simp only [List.all_cons, Bool.and_eq_true, decide_eq_true_eq] at h
    by_cases hq : c = '"'
    · subst hq
      have hu : perCharMap escUnit ('"' :: v) = '\\' :: '"' :: perCharMap escUnit v := by
        simp [perCharMap, escUnit]
      rw [hu, List.cons_append, List.cons_append, bodyRest_backslash, ih h.2]
      rfl
    · have hu : perCharMap escUnit (c :: v) = c :: perCharMap escUnit v := by
        simp [perCharMap, escUnit, h.1, hq]
      rw [hu, List.cons_append, bodyRest_plain _ hq h.1, ih h.2]
      rfl

theorem matchQuotedBody_esc {v : Str} (rest : Str) (hne : v ≠ [])
    (h : v.all (fun c => c ≠ '\\') = true) :
    matchQuotedBody (perCharMap escUnit v ++ '"' :: rest) =
      some (perCharMap escUnit v, rest) := by
  cases v with
  | nil => exact absurd rfl hne
  | cons c v =>
    simp only [List.all_cons, Bool.and_eq_true, decide_eq_true_eq] at h
    by_cases hq : c = '"'
    · subst hq
      have hu : perCharMap escUnit ('"' :: v) = '\\' :: '"' :: perCharMap escUnit v := by
        simp [perCharMap, escUnit]
      rw [hu]
      simp [matchQuotedBody, bodyRest_esc rest h.2]
    · have hu : perCharMap escUnit (c :: v) = c :: perCharMap escUnit v := by
        simp [perCharMap, escUnit, h.1, hq]
      rw [hu]
      simp [matchQuotedBody, hq, h.1, bodyRest_esc rest h.2]

theorem serializeValue_bare {v : Str} (hne : v ≠ []) (hall : v.all isTokenChar = true) :
    serializeValue v = v := by
  unfold serializeValue
  rw [if_neg]
  simp only [Bool.or_eq_true, not_or, Bool.not_eq_true]
  constructor
  · simpa [List.isEmpty_iff] using hne
  · rw [List.any_eq_false]
    intro c hc
    simp [List.all_eq_true.mp hall c hc]

theorem serializeValue_quoted {v : Str}
    (h : v = [] ∨ v.any (fun c => !isTokenChar c) = true) :
    serializeValue v = '"' :: perCharMap escUnit v ++ ['"'] := by
  unfold serializeValue
  rw [escapeValue_eq_perCharMap, if_pos]
  rcases h with rfl | h
  · simp
  · simp [h]

theorem matchValue_cons (c : Char) (r : Str) :
    matchValue (c :: r) =
      if c = '"' then
        match matchQuotedBody r with
        | some (body, rest) => some (body.filter (fun x => x ≠ '\\'), rest)
        | none => none
      else
        let tok := (c :: r).takeWhile isTokenChar
        if tok.isEmpty then none else some (tok, (c :: r).dropWhile isTokenChar) := rfl

theorem matchValue_serialized {v : Str} (rest : Str)
    (hnb : v.all (fun c => c ≠ '\\') = true) (hne : v ≠ [])
    (hrest : ∀ c, rest.head? = some c → isTokenChar c = false) :
    matchValue (serializeValue v ++ rest) = some (v, rest) := by
  by_cases hq : (v.isEmpty || v.any fun c => !isTokenChar c) = true
  · have hq2 : v = [] ∨ v.any (fun c => !isTokenChar c) = true := by
      rcases Bool.or_eq_true_iff.mp hq with h | h
      · exact Or.inl (List.isEmpty_iff.mp h)
      · exact Or.inr h
    rw [serializeValue_quoted hq2]
    have hshape : ('"' :: perCharMap escUnit v ++ ['"']) ++ rest =
        '"' :: (perCharMap escUnit v ++ '"' :: rest) := by simp
    rw [hshape]
    rw [matchValue_cons, if_pos rfl, matchQuotedBody_esc rest hne hnb]
    show some ((perCharMap escUnit v).filter (fun x => x ≠ '\\'), rest) = some (v, rest)
    rw [filter_perCharMap_escUnit hnb]
  · have hall : v.all isTokenChar = true := by
      simp only [Bool.or_eq_true, not_or, Bool.not_eq_true] at hq
      rw [List.any_eq_false] at hq
      rw [List.all_eq_true]
      intro c hc
      have := hq.2 c hc
      simpa using this
    rw [serializeValue_bare hne hall]
    cases v with
    | nil => exact absurd rfl hne
    | cons c vs =>
      have hct : isTokenChar c = true := by
        simp only [List.all_cons, Bool.and_eq_true] at hall
        exact hall.1
      have hrest2 : ∀ d, rest.head? = some d → isTokenChar d = false := hrest
      rw [List.cons_append]
      rw [matchValue_cons, if_neg (isTokenChar_ne_quote hct)]
      have htake : ((c :: vs) ++ rest).takeWhile isTokenChar = c :: vs :=
        takeWhile_all_append hall hrest2
      have hdrop : ((c :: vs) ++ rest).dropWhile isTokenChar = rest :=
        dropWhile_all_append hall hrest2
      rw [List.cons_append] at htake hdrop
      simp only [htake, hdrop]
      rw [if_neg (by simp)]

theorem dropWhile_length_le (p : Char → Bool) (l : Str) :
    (l.dropWhile p).length ≤ l.length := by
  induction l with
  | nil => simp
  | cons c r ih =>
    rw [List.dropWhile_cons]
    by_cases h : p c = true
    · rw [if_pos h]
      simp only [List.length_cons]
      omega
    · rw [if_neg h]

/-! ## Length bounds of the parser -/

theorem bodyRest_rest_lt : ∀ l b r, bodyRest l = some (b, r) → r.length < l.length := by
  intro l
  induction l using bodyRest.induct with
  | case1 =>
    intro b r h
    simp [bodyRest] at h
  | case2 r2 =>
    intro b r h
    rw [bodyRest_quote] at h
    cases h
    simp
  | case3 _ =>
    intro b r h
    have hn : bodyRest ['\\'] = none := by decide
    rw [hn] at h
    cases h
  | case4 c2 r2 _ ih =>
    intro b r h
    rw [bodyRest_backslash] at h
    rcases Option.map_eq_some'.mp h with ⟨br, hbr, heq⟩
    have := ih br.1 br.2 (by rw [hbr])
    cases heq
    simp only [List.length_cons]
    omega
  | case5 c2 r2 hq hb ih =>
    intro b r h
    rw [bodyRest_plain _ hq hb] at h
    rcases Option.map_eq_some'.mp h with ⟨br, hbr, heq⟩
    have := ih br.1 br.2 (by rw [hbr])
    cases heq
    simp only [List.length_cons]
    omega

theorem matchQuotedBody_rest_lt {l : Str} {b r : Str}
    (h : matchQuotedBody l = some (b, r)) : r.length < l.length := by
  cases l with
  | nil => simp [matchQuotedBody] at h
  | cons c r0 =>
    by_cases hq : c = '"'
    · subst hq
      simp [matchQuotedBody] at h
    · by_cases hb : c = '\\'
      · subst hb
        cases r0 with
        | nil =>
          have hn : matchQuotedBody ['\\'] = none := by decide
          rw [hn] at h
          cases h
        | cons c2 r2 =>
          simp only [matchQuotedBody, if_neg hq, if_pos rfl] at h
          rcases Option.map_eq_some'.mp h with ⟨br, hbr, heq⟩
          have := bodyRest_rest_lt r2 br.1 br.2 (by rw [hbr])
          cases heq
          simp only [List.length_cons]
          omega
      · simp only [matchQuotedBody, if_neg hq, if_neg hb] at h
        rcases Option.map_eq_some'.mp h with ⟨br, hbr, heq⟩
        have := bodyRest_rest_lt r0 br.1 br.2 (by rw [hbr])
        cases heq
        simp only [List.length_cons]
        omega

theorem matchValue_rest_lt {l v r : Str} (h : matchValue l = some (v, r)) :
    r.length < l.length := by
  cases l with
  | nil => simp [matchValue] at h
  | cons c r0 =>
    rw [matchValue_cons] at h
    by_cases hq : c = '"'
    · rw [if_pos hq] at h
      cases hm : matchQuotedBody r0 with
      | none => rw [hm] at h; cases h
      | some br =>
        rw [hm] at h
        cases h
        have := matchQuotedBody_rest_lt hm
        simp only [List.length_cons]
        omega
    · rw [if_neg hq] at h
      simp only [] at h
      by_cases he : ((c :: r0).takeWhile isTokenChar).isEmpty
      · rw [if_pos he] at h; cases h
      · rw [if_neg he] at h
        cases h
        have htok : isTokenChar c = true := by
          by_contra hc
          rw [Bool.not_eq_true] at hc
          simp [List.takeWhile_cons, hc] at he
        have : (c :: r0).dropWhile isTokenChar = r0.dropWhile isTokenChar := by
          simp [List.dropWhile_cons, htok]
        rw [this]
        have := dropWhile_length_le isTokenChar r0
        simp only [List.length_cons]
        omega

theorem matchParamAt_rest_lt {l : Str} {kv : Str × Str} {r : Str}
    (h : matchParamAt l = some (kv, r)) : r.length < l.length := by
  cases l with
  | nil => simp [matchParamAt] at h
  | cons c rest0 =>
    by_cases hc : c = ';'
    · subst hc
      simp only [matchParamAt, if_pos rfl] at h
      by_cases he : ((rest0.dropWhile isJsWhitespaceChar).takeWhile isTokenChar).isEmpty
      · rw [if_pos he] at h; cases h
      · rw [if_neg he] at h
        by_cases heq : ((rest0.dropWhile isJsWhitespaceChar).dropWhile isTokenChar).head? =
            some '='
        · rw [if_pos heq] at h
          cases hm : matchValue ((rest0.dropWhile isJsWhitespaceChar).dropWhile
              isTokenChar).tail with
          | none => rw [hm] at h; cases h
          | some vr =>
            rw [hm] at h
            cases h
            have h1 := @matchValue_rest_lt _ vr.1 vr.2 (by rw [hm])
            have h2 := dropWhile_length_le isJsWhitespaceChar vr.2
            have h3 : (((rest0.dropWhile isJsWhitespaceChar).dropWhile
                isTokenChar).tail).length ≤ rest0.length := by
              have a1 := dropWhile_length_le isJsWhitespaceChar rest0
              have a2 := dropWhile_length_le isTokenChar
                (rest0.dropWhile isJsWhitespaceChar)
              have a3 := List.length_tail ((rest0.dropWhile
                isJsWhitespaceChar).dropWhile isTokenChar)
              omega
            simp only [List.length_cons]
            omega
        · rw [if_neg heq] at h; cases h
    · simp [matchParamAt, hc] at h

theorem findMatch_spec {l : Str} {kv : Str × Str} {sk ml : Nat} {rest : Str}
    (h : findMatch l = some (kv, sk, ml, rest)) :
    sk + ml + rest.length = l.length ∧ 1 ≤ ml := by
  induction l generalizing kv sk ml rest with
  | nil => simp [findMatch] at h
  | cons c r ih =>
    rw [findMatch] at h
    cases hm : matchParamAt (c :: r) with
    | some p =>
      rw [hm] at h
      cases h
      have := @matchParamAt_rest_lt _ p.1 p.2 (by rw [hm])
      simp only [List.length_cons] at this ⊢
      omega
    | none =>
      rw [hm] at h
      simp only [Option.map_eq_some'] at h
      rcases h with ⟨m, hm2, heq⟩
      have := @ih m.1 m.2.1 m.2.2.1 m.2.2.2 (by rw [hm2])
      cases heq
      simp only [List.length_cons]
      omega

/-! ## Reparsing one serialized parameter -/

theorem matchParamAt_general (ws k v rest : Str)
    (hws : ws.all isJsWhitespaceChar = true)
    (hk : k ≠ []) (hkt : k.all isTokenChar = true)
    (hvnb : v.all (fun c => c ≠ '\\') = true) (hvne : v ≠ [])
    (hrest : ∀ c, rest.head? = some c → c = ';') :
    matchParamAt (';' :: (ws ++ (k ++ '=' :: (serializeValue v ++ rest)))) =
      some ((k, v), rest) := by
  have hrestTok : ∀ c, rest.head? = some c → isTokenChar c = false := by
    intro c hc
    rw [hrest c hc]
    decide
  have hkheadWs : ∀ c, (k ++ '=' :: (serializeValue v ++ rest)).head? = some c →
      isJsWhitespaceChar c = false := by
    cases k with
    | nil => exact absurd rfl hk
    | cons kh kt =>
      intro c hc
      rw [List.cons_append, List.head?_cons] at hc
      cases hc
      apply isTokenChar_ne_ws
      simp only [List.all_cons, Bool.and_eq_true] at hkt
      exact hkt.1
  have hEqHead : ∀ c, ('=' :: (serializeValue v ++ rest)).head? = some c →
      isTokenChar c = false := by
    intro c hc
    rw [List.head?_cons] at hc
    cases hc
    decide
  have h1 : (ws ++ (k ++ '=' :: (serializeValue v ++ rest))).dropWhile isJsWhitespaceChar
      = k ++ '=' :: (serializeValue v ++ rest) := dropWhile_all_append hws hkheadWs
  have h2 : (k ++ '=' :: (serializeValue v ++ rest)).takeWhile isTokenChar = k :=
    takeWhile_all_append hkt hEqHead
  have h3 : (k ++ '=' :: (serializeValue v ++ rest)).dropWhile isTokenChar =
      '=' :: (serializeValue v ++ rest) := dropWhile_all_append hkt hEqHead
  have h4 : matchValue (serializeValue v ++ rest) = some (v, rest) :=
    matchValue_serialized rest hvnb hvne hrestTok
  have h5 : rest.dropWhile isJsWhitespaceChar = rest := by
    apply dropWhile_head_neg
    intro c hc
    rw [hrest c hc]
    decide
  have hke : k.isEmpty = false := by
    cases k
    · exact absurd rfl hk
    · rfl
  simp only [matchParamAt, if_pos rfl, h1, h2, h3, hke, List.head?_cons, List.tail_cons,
    Bool.false_eq_true, if_false, if_pos rfl, h4, h5]
  simp

theorem findMatch_of_matchParamAt {l : Str} {kv : Str × Str} {rest : Str}
    (h : matchParamAt l = some (kv, rest)) :
    findMatch l = some (kv, 0, l.length - rest.length, rest) := by
  cases l with
  | nil => simp [matchParamAt] at h
  | cons c r => rw [findMatch, h]

/-! ## Scanning a fully serialized parameter list -/

theorem serializedParam_shape (t : MIMETypeParameterTuple) (rest : Str) :
    serializedParam t ++ rest =
      ';' :: ([' '] ++ (t.1 ++ '=' :: (serializeValue t.2 ++ rest))) := by
  simp [serializedParam]

theorem serializedParamsConcat_head (ts : List MIMETypeParameterTuple) :
    ∀ c, (serializedParamsConcat ts).head? = some c → c = ';' := by
  cases ts with
  | nil => intro c hc; cases hc
  | cons t ts =>
    intro c hc
    rw [show serializedParamsConcat (t :: ts) = serializedParam t ++ serializedParamsConcat ts
      from rfl, serializedParam_shape, List.head?_cons] at hc
    cases hc
    rfl

theorem matchParamAt_serializedParam (t : MIMETypeParameterTuple) (rest : Str)
    (hwf : wfTuple t) (hrest : ∀ c, rest.head? = some c → c = ';') :
    matchParamAt (serializedParam t ++ rest) = some ((t.1, t.2), rest) := by
  rw [serializedParam_shape]
  exact matchParamAt_general [' '] t.1 t.2 rest (by decide) hwf.1 hwf.2.1 hwf.2.2.1
    hwf.2.2.2 hrest

theorem scanLoopF_units (ts : List MIMETypeParameterTuple) :
    ∀ fuel pos consumed acc, (∀ t ∈ ts, wfTuple t) → ts.length < fuel →
    scanLoopF fuel (serializedParamsConcat ts) pos pos consumed acc =
      (pos + (serializedParamsConcat ts).length,
       consumed + (serializedParamsConcat ts).length, acc ++ ts) := by
  induction ts with
  | nil =>
    intro fuel pos consumed acc _ hf
    cases fuel with
    | zero => omega
    | succ f => simp [serializedParamsConcat, scanLoopF, findMatch]
  | cons t ts ih =>
    intro fuel pos consumed acc h hf
    cases fuel with
    | zero => omega
    | succ f =>
      have hwf : wfTuple t := h t (by simp)
      have hm : matchParamAt (serializedParam t ++ serializedParamsConcat ts) =
          some ((t.1, t.2), serializedParamsConcat ts) :=
        matchParamAt_serializedParam t _ hwf (serializedParamsConcat_head ts)
      have hfm := findMatch_of_matchParamAt hm
      have hlen : (serializedParam t ++ serializedParamsConcat ts).length -
          (serializedParamsConcat ts).length = (serializedParam t).length := by
        rw [List.length_append]
        omega
      rw [show serializedParamsConcat (t :: ts) = serializedParam t ++ serializedParamsConcat ts
        from rfl]
      rw [scanLoopF, hfm]
      simp only [hlen]
      have ihr := ih f (pos + 0 + (serializedParam t).length)
        (consumed + (serializedParam t).length) (acc ++ [(t.1, t.2)])
        (fun u hu => h u (by simp [hu])) (by simp at hf ⊢; omega)
      rw [ihr]
      simp only [Prod.mk.injEq, List.length_append, List.append_assoc, List.cons_append,
        List.singleton_append, Prod.mk.eta]
      exact ⟨by omega, by omega, rfl⟩

theorem paramsToString_true_aux (ps : List MIMETypeParameterTuple) :
    ∀ out : Str,
      ps.foldl
        (fun out t =>
          (if !out.isEmpty || true then out ++ [';', ' '] else out) ++
            t.1 ++ '=' :: serializeValue t.2) out = out ++ serializedParamsConcat ps := by
  induction ps with
  | nil => intro out; simp [serializedParamsConcat]
  | cons t ts ih =>
    intro out
    rw [List.foldl_cons, ih]
    simp [serializedParam, serializedParamsConcat, List.append_assoc]

theorem paramsToString_true (ps : List MIMETypeParameterTuple) :
    MIMETypeParameters.toString ps true = serializedParamsConcat ps := by
  have h := paramsToString_true_aux ps []
  simpa [MIMETypeParameters.toString] using h

theorem serializedParam_length_pos (t : MIMETypeParameterTuple) :
    1 ≤ (serializedParam t).length := by
  simp [serializedParam]

theorem count_le_concat_length (ts : List MIMETypeParameterTuple) :
    ts.length ≤ (serializedParamsConcat ts).length := by
  induction ts with
  | nil => simp [serializedParamsConcat]
  | cons t ts ih =>
    have := serializedParam_length_pos t
    simp only [serializedParamsConcat, List.length_append, List.length_cons]
    omega

theorem paramsFromString_roundtrip (ts : List MIMETypeParameterTuple)
    (h : ∀ t ∈ ts, wfTuple t) :
    MIMETypeParameters.fromString (MIMETypeParameters.toString ts true) = .ok ts := by
  cases ts with
  | nil => rfl
  | cons t ts' =>
    rw [paramsToString_true]
    have hshape : serializedParamsConcat (t :: ts') =
        serializedParam t ++ serializedParamsConcat ts' := rfl
    have hhead : (serializedParamsConcat (t :: ts')).head? = some ';' := by
      rw [hshape, serializedParam_shape]
      rfl
    have hne : (serializedParamsConcat (t :: ts')).isEmpty = false := by
      rw [hshape, serializedParam_shape]
      rfl
    have hadd : addLeadingSeparator (serializedParamsConcat (t :: ts')) =
        serializedParamsConcat (t :: ts') := by
      unfold addLeadingSeparator
      rw [hhead]
      simp
    have hscan : scanParams (serializedParamsConcat (t :: ts')) =
        ((serializedParamsConcat (t :: ts')).length,
         (serializedParamsConcat (t :: ts')).length, t :: ts') := by
      unfold scanParams
      have hcount := count_le_concat_length (t :: ts')
      have := scanLoopF_units (t :: ts')
        ((serializedParamsConcat (t :: ts')).length + 1) 0 0 [] h (by omega)
      simpa using this
    simp only [MIMETypeParameters.fromString, hne, hadd, hscan, Bool.false_eq_true,
      if_false, if_pos rfl]
    simp

theorem all_token_no_backslash {v : Str} (hvt : v.all isTokenChar = true) :
    v.all (fun c => c ≠ '\\') = true := by
  rw [List.all_eq_true] at hvt ⊢
  intro c hc
  simpa using isTokenChar_ne_backslash (hvt c hc)

theorem fromString_single_bare (k v : Str) (hk : k ≠ []) (hkt : k.all isTokenChar = true)
    (hvne : v ≠ []) (hvt : v.all isTokenChar = true) :
    MIMETypeParameters.fromString (k ++ '=' :: v) = .ok [(k, v)] := by
  have hvnb := all_token_no_backslash hvt
  have hm := matchParamAt_general [] k v [] (by decide) hk hkt hvnb hvne
    (by intro c hc; cases hc)
  rw [serializeValue_bare hvne hvt] at hm
  simp only [List.nil_append, List.append_nil] at hm
  have hfm := findMatch_of_matchParamAt hm
  have hemp : (k ++ '=' :: v).isEmpty = false := by
    cases k with
    | nil => exact absurd rfl hk
    | cons kh kt => rfl
  have hadd : addLeadingSeparator (k ++ '=' :: v) = ';' :: (k ++ '=' :: v) := by
    unfold addLeadingSeparator
    cases k with
    | nil => exact absurd rfl hk
    | cons kh kt =>
      rw [List.cons_append, List.head?_cons]
      rw [if_neg]
      intro hcon
      have : kh = ';' := by injection hcon
      simp only [List.all_cons, Bool.and_eq_true] at hkt
      exact isTokenChar_ne_semi hkt.1 this
  have hlen2 : (';' :: (k ++ '=' :: v)).length + 1 = ((k ++ '=' :: v).length + 1) + 1 := by
    simp
  have hscan : scanParams (';' :: (k ++ '=' :: v)) =
      ((';' :: (k ++ '=' :: v)).length, (';' :: (k ++ '=' :: v)).length, [(k, v)]) := by
    unfold scanParams
    rw [hlen2, scanLoopF, hfm]
    simp only [List.length_nil, Nat.sub_zero, Nat.zero_add, Nat.add_zero, List.nil_append]
    cases hkv : (k ++ '=' :: v).length with
    | zero =>
      exfalso
      cases k with
      | nil => exact absurd rfl hk
      | cons kh kt => simp at hkv
    | succ m =>
      rw [show m + 1 + 1 = (m + 1) + 1 from rfl, scanLoopF]
      simp [findMatch]
  unfold MIMETypeParameters.fromString
  rw [hemp]
  simp only [Bool.false_eq_true, if_false, hadd, hscan, if_pos rfl]
  simp

/-- C5: the serializer emits a value bare exactly when it is a nonempty
all-token string; otherwise it wraps the value in double quotes with every
backslash and double quote escaped by a preceding backslash; and bare token
values round-trip identically through the parameter parser. -/
theorem claim5_quoting (v : Str) :
    (serializeValue v = v ↔ (v ≠ [] ∧ v.all isTokenChar = true)) ∧
    ((v = [] ∨ v.any (fun c => !isTokenChar c) = true) →
      serializeValue v = '"' :: perCharMap escUnit v ++ ['"']) ∧
    (∀ k : Str, k ≠ [] → k.all isTokenChar = true → v ≠ [] → v.all isTokenChar = true →
      MIMETypeParameters.fromString (k ++ '=' :: v) = .ok [(k, v)]) := by
  refine ⟨⟨?_, fun h => serializeValue_bare h.1 h.2⟩, serializeValue_quoted,
    fun k hk hkt hvne hvt => fromString_single_bare k v hk hkt hvne hvt⟩
  intro h
  by_cases hne : v = []
  · subst hne
    exact absurd h (by decide)
  · refine ⟨hne, ?_⟩
    by_contra hall
    have hq : v = [] ∨ v.any (fun c => !isTokenChar c) = true := by
      right
      rw [Bool.not_eq_true] at hall
      rw [List.all_eq_false] at hall
      rcases hall with ⟨c, hc, hcf⟩
      rw [List.any_eq_true]
      exact ⟨c, hc, by simp [hcf]⟩
    rw [serializeValue_quoted hq] at h
    have hlen := congrArg List.length h
    have hle := length_le_perCharMap escUnit_length v
    simp only [List.length_cons, List.length_append] at hlen
    omega

/-- Witness for C5 at concrete inputs: the value with a space is quoted and
escaped character-wise; the bare parameter `a=b` reparses to itself. -/
theorem claim5_quoting_witness :
    serializeValue ("a b".toList) = '"' :: perCharMap escUnit ("a b".toList) ++ ['"'] ∧
    MIMETypeParameters.fromString ("a".toList ++ '=' :: "b".toList) =
      .ok [("a".toList, "b".toList)] :=
  ⟨(claim5_quoting ("a b".toList)).2.1 (Or.inr (by decide)),
   (claim5_quoting ("b".toList)).2.2 ("a".toList) (by decide) (by decide) (by decide)
     (by decide)⟩

/-! ## Well-formedness of parsed tuples -/

theorem matchValue_wf {l v r : Str} (h : matchValue l = some (v, r)) :
    v.all (fun c => c ≠ '\\') = true := by
  cases l with
  | nil => simp [matchValue] at h
  | cons c r0 =>
    rw [matchValue_cons] at h
    by_cases hq : c = '"'
    · rw [if_pos hq] at h
      cases hm : matchQuotedBody r0 with
      | none => rw [hm] at h; cases h
      | some br =>
        rw [hm] at h
        cases h
        rw [List.all_eq_true]
        intro x hx
        have := (List.mem_filter.mp hx).2
        simpa using this
    · rw [if_neg hq] at h
      simp only [] at h
      by_cases he : ((c :: r0).takeWhile isTokenChar).isEmpty
      · rw [if_pos he] at h; cases h
      · rw [if_neg he] at h
        cases h
        exact all_token_no_backslash List.all_takeWhile

theorem matchValue_all_token_or_nb {l v r : Str} (h : matchValue l = some (v, r)) :
    v.all (fun c => c ≠ '\\') = true := matchValue_wf h

theorem matchParamAt_wf {l : Str} {kv : Str × Str} {r : Str}
    (h : matchParamAt l = some (kv, r)) :
    kv.1 ≠ [] ∧ kv.1.all isTokenChar = true ∧ kv.2.all (fun c => c ≠ '\\') = true := by
  cases l with
  | nil => simp [matchParamAt] at h
  | cons c rest0 =>
    by_cases hc : c = ';'
    · subst hc
      simp only [matchParamAt, if_pos rfl] at h
      by_cases he : ((rest0.dropWhile isJsWhitespaceChar).takeWhile isTokenChar).isEmpty
      · rw [if_pos he] at h; cases h
      · rw [if_neg he] at h
        by_cases heq : ((rest0.dropWhile isJsWhitespaceChar).dropWhile isTokenChar).head? =
            some '='
        · rw [if_pos heq] at h
          cases hm : matchValue ((rest0.dropWhile isJsWhitespaceChar).dropWhile
              isTokenChar).tail with
          | none => rw [hm] at h; cases h
          | some vr =>
            rw [hm] at h
            cases h
            refine ⟨?_, List.all_takeWhile, @matchValue_wf _ vr.1 vr.2 (by rw [hm])⟩
            intro hcon
            have hcon2 : (rest0.dropWhile isJsWhitespaceChar).takeWhile isTokenChar = [] :=
              hcon
            rw [hcon2] at he
            exact he rfl
        · rw [if_neg heq] at h; cases h
    · simp [matchParamAt, hc] at h

theorem findMatch_wf {l : Str} {kv : Str × Str} {sk ml : Nat} {rest : Str}
    (h : findMatch l = some (kv, sk, ml, rest)) :
    kv.1 ≠ [] ∧ kv.1.all isTokenChar = true ∧ kv.2.all (fun c => c ≠ '\\') = true := by
  induction l generalizing kv sk ml rest with
  | nil => simp [findMatch] at h
  | cons c r ih =>
    rw [findMatch] at h
    cases hm : matchParamAt (c :: r) with
    | some p =>
      rw [hm] at h
      cases h
      exact @matchParamAt_wf _ p.1 p.2 (by rw [hm])
    | none =>
      rw [hm] at h
      simp only [Option.map_eq_some'] at h
      rcases h with ⟨mm, hm2, heq⟩
      cases heq
      exact @ih mm.1 mm.2.1 mm.2.2.1 mm.2.2.2 (by rw [hm2])

theorem scanLoopF_wf :
    ∀ fuel l pos idx consumed acc,
      (∀ t ∈ acc, t.1 ≠ [] ∧ t.1.all isTokenChar = true ∧
        t.2.all (fun c => c ≠ '\\') = true) →
      ∀ t ∈ (scanLoopF fuel l pos idx consumed acc).2.2,
        t.1 ≠ [] ∧ t.1.all isTokenChar = true ∧ t.2.all (fun c => c ≠ '\\') = true := by
  intro fuel
  induction fuel with
  | zero =>
    intro l pos idx consumed acc hacc t ht
    exact hacc t ht
  | succ f ih =>
    intro l pos idx consumed acc hacc t ht
    rw [scanLoopF] at ht
    cases hfm : findMatch l with
    | none =>
      rw [hfm] at ht
      exact hacc t ht
    | some mr =>
      obtain ⟨kv, sk, ml, rest⟩ := mr
      rw [hfm] at ht
      refine ih _ _ _ _ _ ?_ t ht
      intro u hu
      rcases List.mem_append.mp hu with hu | hu
      · exact hacc u hu
      · rcases List.mem_singleton.mp hu with rfl
        exact findMatch_wf hfm

theorem paramsFromString_wf {s : Str} {ts : List MIMETypeParameterTuple}
    (h : MIMETypeParameters.fromString s = .ok ts) :
    ∀ t ∈ ts, t.1 ≠ [] ∧ t.1.all isTokenChar = true ∧
      t.2.all (fun c => c ≠ '\\') = true := by
  unfold MIMETypeParameters.fromString at h
  by_cases he : s.isEmpty
  · rw [if_pos he] at h
    cases h
    intro t ht
    cases ht
  · rw [if_neg he] at h
    by_cases hidx : (scanParams (addLeadingSeparator s)).1 =
        (addLeadingSeparator s).length
    · rw [if_pos hidx] at h
      cases h
      exact scanLoopF_wf _ _ _ _ _ _ (fun t ht => absurd ht (List.not_mem_nil t))
    · rw [if_neg hidx] at h
      cases h

/-! ## Splitting lemmas for the MIMEType constructor -/

theorem all_mono {p q : Char → Bool} {l : Str} (himp : ∀ c, p c = true → q c = true)
    (h : l.all p = true) : l.all q = true := by
  rw [List.all_eq_true] at h ⊢
  exact fun c hc => himp c (h c hc)

theorem splitBeforeFirst_not_mem {c : Char} {l : Str}
    (h : l.all (fun x => x ≠ c) = true) : splitBeforeFirst c l = none := by
  induction l with
  | nil => rfl
  | cons x xs ih =>
    simp only [List.all_cons, Bool.and_eq_true, decide_eq_true_eq] at h
    rw [splitBeforeFirst, if_neg h.1, ih h.2]
    rfl

theorem splitBeforeFirst_cons_self (c : Char) (r : Str) :
    splitBeforeFirst c (c :: r) = some ([], c :: r) := by
  rw [splitBeforeFirst, if_pos rfl]

theorem splitBeforeFirst_append {c : Char} {l : Str} (r : Str)
    (h : l.all (fun x => x ≠ c) = true) :
    splitBeforeFirst c (l ++ r) =
      (splitBeforeFirst c r).map (fun p => (l ++ p.1, p.2)) := by
  induction l with
  | nil =>
    simp only [List.nil_append]
    cases splitBeforeFirst c r <;> simp
  | cons x xs ih =>
    simp only [List.all_cons, Bool.and_eq_true, decide_eq_true_eq] at h
    rw [List.cons_append, splitBeforeFirst, if_neg h.1, ih h.2]
    cases splitBeforeFirst c r <;> simp

/-! ## Shape of a successfully constructed MIMEType -/

theorem exceptBind_ok {α β : Type} {e : Except Str α} {f : α → Except Str β} {b : β}
    (h : (e >>= f) = .ok b) : ∃ a, e = .ok a ∧ f a = .ok b := by
  cases e with
  | error msg => exact absurd h (by simp [Bind.bind, Except.bind])
  | ok a =>
    refine ⟨a, rfl, ?_⟩
    simpa [Bind.bind, Except.bind] using h

theorem mimeTypeFromString_ok {input : Str} {m : MIMEType}
    (h : MIMEType.fromString input = .ok m) :
    isValidToken m.type = true ∧ isValidToken m.subtype = true ∧
    m.immutable = false ∧ m.parameters.immutable = false ∧
    ∃ s2, MIMETypeParameters.fromString s2 = .ok m.parameters.list := by
  unfold MIMEType.fromString at h
  split at h
  all_goals (try simp only [] at h)
  all_goals
    split at h
    · cases h
    · split at h
      · cases h
      · split at h
        · cases h
        · rename_i hsub
          rename_i hty
          rcases exceptBind_ok h with ⟨ps, hps, hpure⟩
          simp only [pure, Except.pure, Except.ok.injEq] at hpure
          rw [← hpure]
          simp only [Bool.not_eq_true'] at hty hsub
          exact ⟨by simpa using hty, by simpa using hsub, rfl, rfl, _, hps⟩

/-! ## C1: round-trip of accepted MIME type strings -/

theorem isValidToken_parts {l : Str} (h : isValidToken l = true) :
    l ≠ [] ∧ l.all isTokenChar = true := by
  unfold isValidToken at h
  rw [Bool.and_eq_true] at h
  refine ⟨?_, h.2⟩
  intro hcon
  rw [hcon] at h
  exact absurd h.1 (by decide)

/-- C1 (amended): for every string accepted by the MIMEType constructor whose
parsed parameter values are all nonempty, reparsing the serialization yields
the same MIMEType — hence the serialized form is equivalent to the original
(same type, subtype, and parameter tuples in order) and serialization is
idempotent.  (Without the nonemptiness hypothesis the claim fails: a quoted
value consisting only of backslashes parses to the empty string, which
serializes to `""`, and `""` is rejected by the parameter grammar.) -/
theorem claim1_roundtrip (s : Str) (m : MIMEType)
    (h : MIMEType.fromString s = .ok m)
    (hne : ∀ t ∈ m.parameters.list, t.2 ≠ []) :
    MIMEType.fromString (MIMEType.toString m) = .ok m := by
  obtain ⟨hty, hsub, him, hpim, s2, hs2⟩ := mimeTypeFromString_ok h
  have hwf0 := paramsFromString_wf hs2
  have hwf : ∀ t ∈ m.parameters.list, wfTuple t := fun t ht =>
    ⟨(hwf0 t ht).1, (hwf0 t ht).2.1, (hwf0 t ht).2.2, hne t ht⟩
  have htyp := isValidToken_parts hty
  have hsubp := isValidToken_parts hsub
  have hne_semi_ty : m.type.all (fun c => c ≠ ';') = true :=
    all_mono (fun c hc => by simpa using isTokenChar_ne_semi hc) htyp.2
  have hne_semi_sub : m.subtype.all (fun c => c ≠ ';') = true :=
    all_mono (fun c hc => by simpa using isTokenChar_ne_semi hc) hsubp.2
  have hne_slash_ty : m.type.all (fun c => c ≠ '/') = true :=
    all_mono (fun c hc => by simpa using isTokenChar_ne_slash hc) htyp.2
  have hhead_all : (m.type ++ '/' :: m.subtype).all (fun c => c ≠ ';') = true := by
    rw [List.all_append, Bool.and_eq_true]
    refine ⟨hne_semi_ty, ?_⟩
    rw [List.all_cons, Bool.and_eq_true]
    exact ⟨by decide, hne_semi_sub⟩
  have hslash : splitBeforeFirst '/' (m.type ++ '/' :: m.subtype) =
      some (m.type, '/' :: m.subtype) := by
    rw [splitBeforeFirst_append _ hne_slash_ty, splitBeforeFirst_cons_self]
    simp
  have hmrec : MIMEType.mk m.type m.subtype
      (MIMETypeParametersState.mk m.parameters.list false) false = m := by
    cases m with
    | mk ty sub ps im =>
      cases ps with
      | mk lst pim =>
        simp only at him hpim
        subst him hpim
        rfl
  have hts : MIMEType.toString m =
      (m.type ++ '/' :: m.subtype) ++ MIMETypeParameters.toString m.parameters.list true := by
    unfold MIMEType.toString
    simp
  cases hcase : m.parameters.list with
  | nil =>
    have hptstr : MIMETypeParameters.toString m.parameters.list true = [] := by
      rw [hcase]
      rfl
    rw [hts, hptstr, List.append_nil]
    unfold MIMEType.fromString
    rw [splitBeforeFirst_not_mem hhead_all]
    simp only []
    rw [hslash]
    show (if (!isValidToken m.type) = true then Except.error (invalidTypeMessage m.type)
        else if (!isValidToken (List.tail ('/' :: m.subtype))) = true then
          Except.error (invalidSubtypeMessage (List.tail ('/' :: m.subtype)))
        else do
          let ps ← MIMETypeParameters.fromString []
          pure (MIMEType.mk m.type (List.tail ('/' :: m.subtype))
            (MIMETypeParametersState.mk ps false) false)) = Except.ok m
    rw [if_neg (by simp [hty]), if_neg (by simp [List.tail_cons, hsub])]
    show (MIMETypeParameters.fromString [] >>= _) = _
    rw [show MIMETypeParameters.fromString [] = .ok [] from rfl]
    show Except.ok _ = _
    rw [← hcase, List.tail_cons, hmrec]
  | cons t ts =>
    have hptstr : MIMETypeParameters.toString m.parameters.list true =
        serializedParamsConcat (t :: ts) := by
      rw [paramsToString_true, hcase]
    have hpthead : splitBeforeFirst ';' (serializedParamsConcat (t :: ts)) =
        some ([], serializedParamsConcat (t :: ts)) := by
      rw [show serializedParamsConcat (t :: ts) =
        serializedParam t ++ serializedParamsConcat ts from rfl, serializedParam_shape]
      exact splitBeforeFirst_cons_self ';' _
    have hsp : splitBeforeFirst ';'
        ((m.type ++ '/' :: m.subtype) ++ serializedParamsConcat (t :: ts)) =
        some (m.type ++ '/' :: m.subtype, serializedParamsConcat (t :: ts)) := by
      rw [splitBeforeFirst_append _ hhead_all, hpthead]
      simp
    have hfs : MIMETypeParameters.fromString (serializedParamsConcat (t :: ts)) =
        .ok m.parameters.list := by
      have := paramsFromString_roundtrip m.parameters.list hwf
      rw [paramsToString_true, hcase] at this
      rw [this, hcase]
    rw [hts, hptstr]
    unfold MIMEType.fromString
    rw [hsp]
    simp only []
    rw [hslash]
    show (if (!isValidToken m.type) = true then Except.error (invalidTypeMessage m.type)
        else if (!isValidToken (List.tail ('/' :: m.subtype))) = true then
          Except.error (invalidSubtypeMessage (List.tail ('/' :: m.subtype)))
        else do
          let ps ← MIMETypeParameters.fromString (serializedParamsConcat (t :: ts))
          pure (MIMEType.mk m.type (List.tail ('/' :: m.subtype))
            (MIMETypeParametersState.mk ps false) false)) = Except.ok m
    rw [if_neg (by simp [hty]), if_neg (by simp [List.tail_cons, hsub])]
    show (MIMETypeParameters.fromString (serializedParamsConcat (t :: ts)) >>= _) = _
    rw [hfs]
    show Except.ok _ = _
    rw [List.tail_cons, hmrec]

/-! ## C2: termination condition and error message of the parameter parser -/

theorem scanLoopF_idx_le : ∀ fuel l pos idx consumed acc, idx ≤ pos →
    (scanLoopF fuel l pos idx consumed acc).1 ≤ pos + l.length := by
  intro fuel
  induction fuel with
  | zero =>
    intro l pos idx c acc h
    simp only [scanLoopF]
    omega
  | succ f ih =>
    intro l pos idx c acc h
    rw [scanLoopF]
    cases hfm : findMatch l with
    | none =>
      simp only []
      omega
    | some mr =>
      obtain ⟨kv, sk, ml, rest⟩ := mr
      obtain ⟨hsum, hml⟩ := findMatch_spec hfm
      show (scanLoopF f rest (pos + sk + ml) (pos + sk + ml) (c + ml) (acc ++ [kv])).1 ≤
        pos + l.length
      have hrec := ih rest (pos + sk + ml) (pos + sk + ml) (c + ml) (acc ++ [kv]) le_rfl
      omega

theorem scanParams_idx_le (initS : Str) : (scanParams initS).1 ≤ initS.length := by
  have := scanLoopF_idx_le (initS.length + 1) initS 0 0 0 [] le_rfl
  simpa [scanParams] using this

/-- C2 (amended): a nonempty input to the parameter-list string constructor
parses successfully iff the input remaining after the end of the last
grammar match is empty (text lying between two matches may be skipped
without an error); whenever input remains after the last match, the thrown
message reports the first 30 characters of that remaining tail, with a
`...` suffix exactly when the tail is longer than 30 characters. -/
theorem claim2_parse_error (s : Str) (hs : s ≠ []) :
    (exceptIsOk (MIMETypeParameters.fromString s) = true ↔
      unconsumedTail (addLeadingSeparator s) = []) ∧
    (∀ msg, MIMETypeParameters.fromString s = .error msg →
      msg = mkNotValidMessage ((unconsumedTail (addLeadingSeparator s)).take 30)
        (decide (30 < (unconsumedTail (addLeadingSeparator s)).length))) := by
  have hemp : s.isEmpty = false := by
    cases s with
    | nil => exact absurd rfl hs
    | cons c r => rfl
  have hidx := scanParams_idx_le (addLeadingSeparator s)
  have hdroplen : (unconsumedTail (addLeadingSeparator s)).length =
      (addLeadingSeparator s).length - (scanParams (addLeadingSeparator s)).1 := by
    unfold unconsumedTail
    rw [List.length_drop]
  constructor
  · by_cases hcond : (scanParams (addLeadingSeparator s)).1 = (addLeadingSeparator s).length
    · have hok : MIMETypeParameters.fromString s =
          .ok (scanParams (addLeadingSeparator s)).2.2 := by
        unfold MIMETypeParameters.fromString
        rw [hemp]
        simp only [Bool.false_eq_true, if_false]
        rw [if_pos hcond]
      rw [hok]
      unfold unconsumedTail
      rw [hcond, List.drop_length]
      simp [exceptIsOk]
    · have herr : MIMETypeParameters.fromString s =
          .error (mkNotValidMessage
            (((addLeadingSeparator s).drop (scanParams (addLeadingSeparator s)).1).take 30)
            (decide ((scanParams (addLeadingSeparator s)).1 + 30 <
              (addLeadingSeparator s).length))) := by
        unfold MIMETypeParameters.fromString
        rw [hemp]
        simp only [Bool.false_eq_true, if_false]
        rw [if_neg hcond]
      rw [herr]
      constructor
      · intro hcontra
        exact absurd hcontra (by simp [exceptIsOk])
      · intro htail
        exfalso
        have : (unconsumedTail (addLeadingSeparator s)).length = 0 := by rw [htail]; rfl
        omega
  · intro msg hmsg
    by_cases hcond : (scanParams (addLeadingSeparator s)).1 = (addLeadingSeparator s).length
    · exfalso
      have hok : MIMETypeParameters.fromString s =
          .ok (scanParams (addLeadingSeparator s)).2.2 := by
        unfold MIMETypeParameters.fromString
        rw [hemp]
        simp only [Bool.false_eq_true, if_false]
        rw [if_pos hcond]
      rw [hok] at hmsg
      cases hmsg
    · have herr : MIMETypeParameters.fromString s =
          .error (mkNotValidMessage
            (((addLeadingSeparator s).drop (scanParams (addLeadingSeparator s)).1).take 30)
            (decide ((scanParams (addLeadingSeparator s)).1 + 30 <
              (addLeadingSeparator s).length))) := by
        unfold MIMETypeParameters.fromString
        rw [hemp]
        simp only [Bool.false_eq_true, if_false]
        rw [if_neg hcond]
      rw [herr] at hmsg
      cases hmsg
      unfold unconsumedTail
      congr 1
      rw [decide_eq_decide]
      rw [List.length_drop]
      omega

/-- Counterexample for C2 as stated: `;a=b @ ;c=d` parses successfully even
though the characters `@ ` between the two matches were never consumed by the
grammar scan (the total matched length is 9, the input length 11). -/
theorem claim2_counterexample :
    MIMETypeParameters.fromString (";a=b @ ;c=d".toList) =
      .ok [("a".toList, "b".toList), ("c".toList, "d".toList)] ∧
    (scanParams (addLeadingSeparator (";a=b @ ;c=d".toList))).2.1 ≠
      (addLeadingSeparator (";a=b @ ;c=d".toList)).length :=
  ⟨by decide, by decide⟩

/-- Witness for C2 at the concrete failing input `;@`. -/
theorem claim2_parse_error_witness :
    MIMETypeParameters.fromString (";@".toList) =
      .error (mkNotValidMessage ((unconsumedTail (addLeadingSeparator (";@".toList))).take 30)
        (decide (30 < (unconsumedTail (addLeadingSeparator (";@".toList))).length))) := by
  cases he : MIMETypeParameters.fromString (";@".toList) with
  | ok v =>
    exfalso
    have h1 := (claim2_parse_error (";@".toList) (by decide)).1.mp (by rw [he]; rfl)
    exact absurd h1 (by decide)
  | error msg =>
    rw [(claim2_parse_error (";@".toList) (by decide)).2 msg he]

/-- Counterexample for C1 as stated: the constructor accepts
`text/plain;a="\\"` (quoted value of two backslashes, parsed to the empty
string), its serialization is `text/plain; a=""`, and reparsing that
serialization fails — so serialize-then-parse is not total on accepted
inputs. -/
theorem claim1_counterexample :
    MIMEType.fromString ("text/plain;a=\"\\\\\"".toList) =
      .ok (MIMEType.mk ("text".toList) ("plain".toList)
        (MIMETypeParametersState.mk [("a".toList, [])] false) false) ∧
    MIMEType.toString (MIMEType.mk ("text".toList) ("plain".toList)
        (MIMETypeParametersState.mk [("a".toList, [])] false) false) =
      "text/plain; a=\"\"".toList ∧
    exceptIsOk (MIMEType.fromString ("text/plain; a=\"\"".toList)) = false :=
  ⟨by decide, by decide, by decide⟩

/-- Witness for C1 at the concrete accepted input `text/plain; a=b`. -/
theorem claim1_roundtrip_witness :
    MIMEType.fromString (MIMEType.toString (MIMEType.mk ("text".toList) ("plain".toList)
        (MIMETypeParametersState.mk [("a".toList, "b".toList)] false) false)) =
      .ok (MIMEType.mk ("text".toList) ("plain".toList)
        (MIMETypeParametersState.mk [("a".toList, "b".toList)] false) false) := by
  have h1 : MIMEType.fromString ("text/plain; a=b".toList) =
      .ok (MIMEType.mk ("text".toList) ("plain".toList)
        (MIMETypeParametersState.mk [("a".toList, "b".toList)] false) false) := by decide
  exact claim1_roundtrip _ _ h1 (by decide)

/-! ## C8: whitespace accepted around parameters -/

theorem fromString_full_single (s : Str) (kv : Str × Str)
    (hhead : s.head? = some ';') (hm : matchParamAt s = some (kv, [])) :
    MIMETypeParameters.fromString s = .ok [kv] := by
  have hne : s ≠ [] := by
    intro hc
    rw [hc] at hhead
    cases hhead
  have hemp : s.isEmpty = false := by
    cases s with
    | nil => exact absurd rfl hne
    | cons c r => rfl
  have hadd : addLeadingSeparator s = s := by
    unfold addLeadingSeparator
    rw [hhead]
    simp
  have hfm := findMatch_of_matchParamAt hm
  obtain ⟨n, hn⟩ : ∃ n, s.length = n + 1 := by
    cases s with
    | nil => exact absurd rfl hne
    | cons c r => exact ⟨r.length, rfl⟩
  have hscan : scanParams s = (s.length, s.length, [kv]) := by
    unfold scanParams
    rw [show s.length + 1 = (n + 1) + 1 from by omega, scanLoopF, hfm]
    show scanLoopF (n + 1) [] (0 + 0 + (s.length - List.length [])) _ _ _ = _
    rw [scanLoopF]
    simp [findMatch]
  unfold MIMETypeParameters.fromString
  rw [hemp]
  simp only [Bool.false_eq_true, if_false, hadd, hscan, if_pos rfl]
  simp

/-- C8 (amended): the whitespace accepted around a parameter (between the
`;` and the key, and after the value) is the JavaScript `\s` class — SP and
HTAB, but also LF, CR, VT, FF, NBSP and the other Unicode space characters —
because the regex uses `\s*`, not `[ \t]*`. -/
theorem claim8_whitespace (c : Char) (hws : isJsWhitespaceChar c = true) :
    MIMETypeParameters.fromString (';' :: c :: ("a=b".toList)) =
      .ok [("a".toList, "b".toList)] ∧
    MIMETypeParameters.fromString ((";a=b".toList) ++ [c]) =
      .ok [("a".toList, "b".toList)] := by
  have htokc : isTokenChar c = false := ws_not_token hws
  constructor
  · refine fromString_full_single (';' :: c :: ("a=b".toList))
      (("a".toList, "b".toList)) (by rfl) ?_
    have hgen := matchParamAt_general [c] ("a".toList) ("b".toList) []
      (by simp [hws]) (by decide) (by decide) (by decide) (by decide)
      (fun d hd => by cases hd)
    rw [show serializeValue ("b".toList) = "b".toList from by decide] at hgen
    simpa using hgen
  · refine fromString_full_single ((";a=b".toList) ++ [c])
      (("a".toList, "b".toList)) (by rfl) ?_
    show matchParamAt (';' :: 'a' :: '=' :: 'b' :: [c]) = some ((['a'], ['b']), [])
    have hd1 : ('a' :: '=' :: 'b' :: [c]).dropWhile isJsWhitespaceChar =
        'a' :: '=' :: 'b' :: [c] := by
      rw [List.dropWhile_cons_of_neg]
      decide
    have ht1 : ('a' :: '=' :: 'b' :: [c]).takeWhile isTokenChar = ['a'] := by
      rw [List.takeWhile_cons_of_pos (by decide), List.takeWhile_cons_of_neg (by decide)]
    have hd2 : ('a' :: '=' :: 'b' :: [c]).dropWhile isTokenChar = '=' :: 'b' :: [c] := by
      rw [List.dropWhile_cons_of_pos (by decide), List.dropWhile_cons_of_neg (by decide)]
    have hmv : matchValue ('b' :: [c]) = some (['b'], [c]) := by
      rw [matchValue_cons, if_neg (by decide)]
      have ht2 : ('b' :: [c]).takeWhile isTokenChar = ['b'] := by
        rw [List.takeWhile_cons_of_pos (by decide), List.takeWhile_cons_of_neg (by
          simp [htokc])]
      have hd3 : ('b' :: [c]).dropWhile isTokenChar = [c] := by
        rw [List.dropWhile_cons_of_pos (by decide), List.dropWhile_cons_of_neg (by
          simp [htokc])]
      simp only [ht2, hd3]
      rw [if_neg (by simp)]
    simp only [matchParamAt, if_pos rfl, hd1, ht1, hd2, List.head?_cons, List.tail_cons,
      if_pos rfl, hmv]
    have hd4 : ([c] : Str).dropWhile isJsWhitespaceChar = [] := by
      rw [List.dropWhile_cons_of_pos hws]
      rfl
    simp [hd4]

/-- Counterexample for C8 as stated: a parameter separator using LF (not SP
or HTAB) is accepted by the parameter parser. -/
theorem claim8_counterexample :
    MIMETypeParameters.fromString (";\na=b".toList) = .ok [("a".toList, "b".toList)] := by
  decide

/-- Witness for C8 at the concrete whitespace character LF. -/
theorem claim8_whitespace_witness :
    MIMETypeParameters.fromString (';' :: '\n' :: ("a=b".toList)) =
      .ok [("a".toList, "b".toList)] ∧
    MIMETypeParameters.fromString ((";a=b".toList) ++ ['\n']) =
      .ok [("a".toList, "b".toList)] :=
  claim8_whitespace '\n' (by decide)

/-! ## C3: key case-folding on the validated construction paths -/

theorem append_ok (ps : List MIMETypeParameterTuple) (k v : Str)
    (hk : isValidToken k = true) (hv : isValidRestrictedText v = true) :
    MIMETypeParameters.append ps k v = .ok (ps ++ [(k.map Char.toLower, v)]) := by
  unfold MIMETypeParameters.append
  rw [show checkAndNormalizeMIMETypeParameterKey k = .ok (k.map Char.toLower) from by
    unfold checkAndNormalizeMIMETypeParameterKey
    rw [if_pos hk]]
  rw [show checkAndNormalizeMIMETypeParameterValue (some v) = .ok (some v) from by
    show (if isValidRestrictedText v = true then Except.ok (some v)
      else Except.error invalidValueMessage) = Except.ok (some v)
    rw [if_pos hv]]
  rfl

theorem fromPairsAux_ok :
    ∀ (pairs : List (Str × Str)) (acc : List MIMETypeParameterTuple),
    (∀ p ∈ pairs, isValidToken p.1 = true ∧ isValidRestrictedText p.2 = true) →
    MIMETypeParameters.fromPairsAux acc pairs =
      .ok (acc ++ pairs.map (fun p => (p.1.map Char.toLower, p.2))) := by
  intro pairs
  induction pairs with
  | nil =>
    intro acc _
    simp [MIMETypeParameters.fromPairsAux]
  | cons p rest ih =>
    intro acc h
    have hp := h p (by simp)
    unfold MIMETypeParameters.fromPairsAux
    rw [append_ok acc p.1 p.2 hp.1 hp.2]
    show MIMETypeParameters.fromPairsAux (acc ++ [(p.1.map Char.toLower, p.2)]) rest = _
    rw [ih _ (fun q hq => h q (by simp [hq]))]
    simp

/-- C3 (amended): for every parameter constructed with key K through
`append`, `set`, iterable input, or mapping input (the latter two call
`append` per pair), the stored key equals `K.toLowerCase()`, and retrieval
with any ASCII case variant of K locates the tuple: `has` answers true,
`getAll` contains the value, and `get` returns a non-null value.  (Keys
coming from the string-parsing path of the part_003 variant are stored
verbatim, without case folding — see the counterexample.) -/
theorem claim3_case_folding (ps : List MIMETypeParameterTuple) (k v k2 : Str)
    (hk : isValidToken k = true) (hv : isValidRestrictedText v = true)
    (hk2 : isValidToken k2 = true)
    (hfold : k2.map Char.toLower = k.map Char.toLower) :
    MIMETypeParameters.append ps k v = .ok (ps ++ [(k.map Char.toLower, v)]) ∧
    MIMETypeParameters.set ps k v =
      .ok (deleteLoop (k.map Char.toLower) none ps ++ [(k.map Char.toLower, v)]) ∧
    (∀ pairs : List (Str × Str),
      (∀ p ∈ pairs, isValidToken p.1 = true ∧ isValidRestrictedText p.2 = true) →
      MIMETypeParameters.fromPairs pairs =
        .ok (pairs.map (fun p => (p.1.map Char.toLower, p.2)))) ∧
    MIMETypeParameters.has (ps ++ [(k.map Char.toLower, v)]) k2 none = .ok true ∧
    (∀ vs, MIMETypeParameters.getAll (ps ++ [(k.map Char.toLower, v)]) k2 = .ok vs →
      v ∈ vs) ∧
    (∃ w, MIMETypeParameters.get (ps ++ [(k.map Char.toLower, v)]) k2 = .ok (some w)) := by
  refine ⟨append_ok ps k v hk hv, ?_, ?_, ?_, ?_, ?_⟩
  · unfold MIMETypeParameters.set
    rw [show checkAndNormalizeMIMETypeParameterKey k = .ok (k.map Char.toLower) from by
      unfold checkAndNormalizeMIMETypeParameterKey
      rw [if_pos hk]]
    rw [show checkAndNormalizeMIMETypeParameterValue (some v) = .ok (some v) from by
      show (if isValidRestrictedText v = true then Except.ok (some v)
        else Except.error invalidValueMessage) = Except.ok (some v)
      rw [if_pos hv]]
    rfl
  · intro pairs hpairs
    unfold MIMETypeParameters.fromPairs
    rw [fromPairsAux_ok pairs [] hpairs]
    simp
  · unfold MIMETypeParameters.has checkAndNormalizeMIMETypeParameterKey
      checkAndNormalizeMIMETypeParameterValue
    rw [if_pos hk2]
    show Except.ok ((ps ++ [(k.map Char.toLower, v)]).any
      (tupleMatches (k2.map Char.toLower) none)) = .ok true
    rw [List.any_append]
    have hlast : (([(k.map Char.toLower, v)] : List MIMETypeParameterTuple).any
        (tupleMatches (k2.map Char.toLower) none)) = true := by
      simp [tupleMatches, hfold]
    rw [hlast]
    simp
  · intro vs hvs
    unfold MIMETypeParameters.getAll checkAndNormalizeMIMETypeParameterKey at hvs
    rw [if_pos hk2] at hvs
    have hvs2 : ((ps ++ [(k.map Char.toLower, v)]).filter
        (fun t => t.1 = k2.map Char.toLower)).map (fun t => t.2) = vs := by
      have := hvs
      simp only [Except.bind] at this
      cases this
      rfl
    rw [← hvs2, List.filter_append, List.map_append]
    apply List.mem_append_right
    have : (([(k.map Char.toLower, v)] : List MIMETypeParameterTuple).filter
        (fun t => t.1 = k2.map Char.toLower)) = [(k.map Char.toLower, v)] := by
      simp [hfold]
    rw [this]
    simp
  · have hfind : ∃ y, ((ps ++ [(k.map Char.toLower, v)]).find?
        (fun t => t.1 = k2.map Char.toLower)) = some y := by
      have hmem : ((k.map Char.toLower, v) : MIMETypeParameterTuple) ∈
          ps ++ [(k.map Char.toLower, v)] := by simp
      have hpx : (fun t : MIMETypeParameterTuple => decide (t.1 = k2.map Char.toLower))
          ((k.map Char.toLower, v) : MIMETypeParameterTuple) = true := by
        show decide ((k.map Char.toLower : Str) = k2.map Char.toLower) = true
        rw [hfold]
        simp
      have hsome := (@List.find?_isSome MIMETypeParameterTuple
        (ps ++ [(k.map Char.toLower, v)])
        (fun t => decide (t.1 = k2.map Char.toLower))).mpr
        ⟨(k.map Char.toLower, v), hmem, hpx⟩
      cases hfq : (ps ++ [(k.map Char.toLower, v)]).find?
          (fun t => t.1 = k2.map Char.toLower) with
      | none => rw [hfq] at hsome; cases hsome
      | some y => exact ⟨y, rfl⟩
    obtain ⟨y, hy⟩ := hfind
    refine ⟨y.2, ?_⟩
    unfold MIMETypeParameters.get
    rw [show checkAndNormalizeMIMETypeParameterKey k2 = .ok (k2.map Char.toLower) from by
      unfold checkAndNormalizeMIMETypeParameterKey
      rw [if_pos hk2]]
    show Except.ok (((ps ++ [(k.map Char.toLower, v)]).find?
      (fun t => t.1 = k2.map Char.toLower)).map (fun t => t.2)) =
        Except.ok (some y.2)
    rw [hy]
    rfl

/-- Counterexample for C3 as stated: parsing the string `;A=b` stores the key
`A` verbatim (the string path bypasses `checkAndNormalizeMIMETypeParameterKey`),
the stored key differs from `"A".toLowerCase()`, and `get` with the case
variant `A` (the very key used) fails to locate the tuple. -/
theorem claim3_counterexample :
    MIMETypeParameters.fromString (";A=b".toList) = .ok [("A".toList, "b".toList)] ∧
    "A".toList ≠ "A".toList.map Char.toLower ∧
    MIMETypeParameters.get [("A".toList, "b".toList)] ("A".toList) = .ok none :=
  ⟨by decide, by decide, by decide⟩

/-- Witness for C3 at concrete inputs: appending or setting key `Ch` stores
`ch`, a singleton pair list constructs the lowercased tuple, and
`has`/`get` with the case variant `cH` find it. -/
theorem claim3_case_folding_witness :
    MIMETypeParameters.append [] ("Ch".toList) ("x".toList) =
      .ok ([] ++ [("Ch".toList.map Char.toLower, "x".toList)]) ∧
    MIMETypeParameters.set [] ("Ch".toList) ("x".toList) =
      .ok (deleteLoop ("Ch".toList.map Char.toLower) none [] ++
        [("Ch".toList.map Char.toLower, "x".toList)]) ∧
    MIMETypeParameters.fromPairs [(("Ch".toList : Str), ("x".toList : Str))] =
      .ok ([(("Ch".toList : Str), ("x".toList : Str))].map
        (fun p => (p.1.map Char.toLower, p.2))) ∧
    MIMETypeParameters.has ([] ++ [("Ch".toList.map Char.toLower, "x".toList)])
      ("cH".toList) none = .ok true ∧
    (∃ w, MIMETypeParameters.get ([] ++ [("Ch".toList.map Char.toLower, "x".toList)])
      ("cH".toList) = .ok (some w)) :=
  ⟨(claim3_case_folding [] ("Ch".toList) ("x".toList) ("cH".toList) (by decide) (by decide)
      (by decide) (by decide)).1,
   (claim3_case_folding [] ("Ch".toList) ("x".toList) ("cH".toList) (by decide) (by decide)
      (by decide) (by decide)).2.1,
   (claim3_case_folding [] ("Ch".toList) ("x".toList) ("cH".toList) (by decide) (by decide)
      (by decide) (by decide)).2.2.1 [(("Ch".toList : Str), ("x".toList : Str))] (by decide),
   (claim3_case_folding [] ("Ch".toList) ("x".toList) ("cH".toList) (by decide) (by decide)
      (by decide) (by decide)).2.2.2.1,
   (claim3_case_folding [] ("Ch".toList) ("x".toList) ("cH".toList) (by decide) (by decide)
      (by decide) (by decide)).2.2.2.2.2⟩

/-! ## C6: delete removes all matching tuples and counts them -/

theorem deleteLoop_eq_filter (k : Str) (v : Option Str)
    (ps : List MIMETypeParameterTuple) :
    deleteLoop k v ps = ps.filter (fun t => !tupleMatches k v t) := by
  induction ps with
  | nil => rfl
  | cons t ts ih =>
    unfold deleteLoop
    by_cases h : tupleMatches k v t = true
    · rw [if_pos h, ih, List.filter_cons]
      simp [h]
    · rw [if_neg h, ih, List.filter_cons]
      simp only [Bool.not_eq_true] at h
      simp [h]

theorem filter_length_split (p : MIMETypeParameterTuple → Bool)
    (ps : List MIMETypeParameterTuple) :
    (ps.filter p).length + (ps.filter (fun t => !p t)).length = ps.length := by
  induction ps with
  | nil => rfl
  | cons t ts ih =>
    by_cases h : p t = true
    · simp [List.filter_cons, h, ← ih]
      omega
    · simp only [Bool.not_eq_true] at h
      simp [List.filter_cons, h, ← ih]
      omega

/-- C6: `delete(key, value?)` removes exactly the tuples whose stored key
equals the normalized key (and, when a value is supplied, whose value equals
it), preserving the others in order; the `@xstd/mapped-list`-based variant
additionally returns the number of tuples removed. -/
theorem claim6_delete (ps : List MIMETypeParameterTuple) (k : Str) (v : Option Str)
    (hk : isValidToken k = true) (hv : ∀ s, v = some s → isValidRestrictedText s = true) :
    MIMETypeParameters.delete ps k v =
      .ok (ps.filter (fun t => !tupleMatches (k.map Char.toLower) v t)) ∧
    MIMETypeParameters.deleteCounting ps k v =
      .ok ((ps.filter (tupleMatches (k.map Char.toLower) v)).length,
        ps.filter (fun t => !tupleMatches (k.map Char.toLower) v t)) := by
  have hval : checkAndNormalizeMIMETypeParameterValue v = .ok v := by
    cases v with
    | none => rfl
    | some s =>
      show (if isValidRestrictedText s = true then Except.ok (some s)
        else Except.error invalidValueMessage) = Except.ok (some s)
      rw [if_pos (hv s rfl)]
  have hkey : checkAndNormalizeMIMETypeParameterKey k = .ok (k.map Char.toLower) := by
    unfold checkAndNormalizeMIMETypeParameterKey
    rw [if_pos hk]
  have hcount : ps.length -
      (ps.filter (fun t => !tupleMatches (k.map Char.toLower) v t)).length =
      (ps.filter (tupleMatches (k.map Char.toLower) v)).length := by
    have := filter_length_split (tupleMatches (k.map Char.toLower) v) ps
    omega
  constructor
  · unfold MIMETypeParameters.delete
    rw [hkey, hval]
    show Except.ok (deleteLoop (k.map Char.toLower) v ps) = _
    rw [deleteLoop_eq_filter]
  · unfold MIMETypeParameters.deleteCounting
    rw [hkey, hval]
    show Except.ok (ps.length - (deleteLoop (k.map Char.toLower) v ps).length,
      deleteLoop (k.map Char.toLower) v ps) = _
    rw [deleteLoop_eq_filter, hcount]

/-- Witness for C6 at a concrete list: deleting key `a` from
`a=b; a=c; e=f` removes two tuples and keeps `e=f`. -/
theorem claim6_delete_witness :
    MIMETypeParameters.delete
        [("a".toList, "b".toList), ("a".toList, "c".toList), ("e".toList, "f".toList)]
        ("a".toList) none =
      .ok ([("a".toList, "b".toList), ("a".toList, "c".toList),
        ("e".toList, "f".toList)].filter
          (fun t => !tupleMatches ("a".toList.map Char.toLower) none t)) ∧
    MIMETypeParameters.deleteCounting
        [("a".toList, "b".toList), ("a".toList, "c".toList), ("e".toList, "f".toList)]
        ("a".toList) none =
      .ok (([("a".toList, "b".toList), ("a".toList, "c".toList),
        ("e".toList, "f".toList)].filter
          (tupleMatches ("a".toList.map Char.toLower) none)).length,
        [("a".toList, "b".toList), ("a".toList, "c".toList),
          ("e".toList, "f".toList)].filter
            (fun t => !tupleMatches ("a".toList.map Char.toLower) none t)) :=
  claim6_delete _ ("a".toList) none (by decide) (fun s hs => by cases hs)

/-! ## C7: actual argument order of forEach -/

/-- C7 evidence: on the list holding the single tuple with key `a` and value
`a1`, `forEach` of the part_003 variant invokes the callback with the KEY as
first argument and the value as second — `cb('a', 'a1', list)` — although the
declared callback type (and the specification) put the value first. -/
theorem claim7_forEach_order :
    MIMETypeParameters.forEachCalls [("a".toList, "a1".toList)] =
      [("a".toList, "a1".toList, [("a".toList, "a1".toList)])] ∧
    "a".toList ≠ "a1".toList :=
  ⟨rfl, by decide⟩

/-! ## C10: empty values break the parse/serialize round trip -/

/-- C10: `append` accepts the empty string as a value, `toString` serializes
the tuple `(a, "")` as `a=""`, and the string constructor rejects that very
output (the quoted-value pattern requires at least one character between the
quotes), as it rejects any input containing an empty quoted value. -/
theorem claim10_empty_value :
    MIMETypeParameters.append [] ("a".toList) [] =
      .ok [(("a".toList : Str), ([] : Str))] ∧
    MIMETypeParameters.toString [(("a".toList : Str), ([] : Str))] false =
      "a=\"\"".toList ∧
    exceptIsOk (MIMETypeParameters.fromString
      (MIMETypeParameters.toString [(("a".toList : Str), ([] : Str))] false)) = false ∧
    exceptIsOk (MIMETypeParameters.fromString ("key=\"\"".toList)) = false :=
  ⟨by decide, by decide, by decide, by decide⟩

/-! ## C4: immutability closure -/

theorem lock_eq_self {st : MIMEType} (him : st.immutable = true)
    (hpim : st.parameters.immutable = true) : MIMEType.lock st = st := by
  cases st with
  | mk ty sub ps im =>
    cases ps with
    | mk lst pim =>
      simp only at him hpim
      subst him hpim
      rfl

/-- C4: once a MIMEType is locked (flag set on it and, by propagation, on its
parameter list), every mutating operation fails with the immutability error;
any operation that still succeeds leaves the state unchanged (so the flag can
never be unset); locking is idempotent; and the read-only surface — `type`,
`subtype`, the tuples, `toString` — is unaffected by locking. -/
theorem claim4_immutability (st : MIMEType) (op : MTOp) (st2 : MIMEType) :
    (st.immutable = true → st.parameters.immutable = true → MTOp.isMutator op = true →
      MIMEType.step op st = .error immutableMessage) ∧
    (MIMEType.step op st = .ok st2 → st.immutable = true →
      st.parameters.immutable = true → st2 = st) ∧
    (MIMEType.lock (MIMEType.lock st) = MIMEType.lock st) ∧
    (MIMEType.toString (MIMEType.lock st) = MIMEType.toString st) ∧
    ((MIMEType.lock st).type = st.type ∧ (MIMEType.lock st).subtype = st.subtype ∧
      (MIMEType.lock st).parameters.list = st.parameters.list) ∧
    (MIMEType.step MTOp.makeImmutable st = .ok (MIMEType.lock st)) := by
  refine ⟨?_, ?_, ?_, ?_, ⟨rfl, rfl, rfl⟩, rfl⟩
  · intro him hpim hmut
    cases op with
    | setType s => simp [MIMEType.step, him]
    | setSubtype s => simp [MIMEType.step, him]
    | setTypeAndSubtype s => simp [MIMEType.step, him]
    | makeImmutable => exact absurd hmut (by simp [MTOp.isMutator])
    | paramsAppend k v => simp [MIMEType.step, hpim]
    | paramsSet k v => simp [MIMEType.step, hpim]
    | paramsDelete k v => simp [MIMEType.step, hpim]
    | paramsClear => simp [MIMEType.step, hpim]
    | paramsSort => simp [MIMEType.step, hpim]
    | paramsMakeImmutable => exact absurd hmut (by simp [MTOp.isMutator])
  · intro hok him hpim
    cases op with
    | setType s => simp [MIMEType.step, him] at hok
    | setSubtype s => simp [MIMEType.step, him] at hok
    | setTypeAndSubtype s => simp [MIMEType.step, him] at hok
    | makeImmutable =>
      simp only [MIMEType.step, Except.ok.injEq] at hok
      rw [← hok, lock_eq_self him hpim]
    | paramsAppend k v => simp [MIMEType.step, hpim] at hok
    | paramsSet k v => simp [MIMEType.step, hpim] at hok
    | paramsDelete k v => simp [MIMEType.step, hpim] at hok
    | paramsClear => simp [MIMEType.step, hpim] at hok
    | paramsSort => simp [MIMEType.step, hpim] at hok
    | paramsMakeImmutable =>
      simp only [MIMEType.step, Except.ok.injEq] at hok
      rw [← hok]
      cases st with
      | mk ty sub ps im =>
        cases ps with
        | mk lst pim =>
          simp only at hpim
          subst hpim
          rfl
  · cases st with
    | mk ty sub ps im => cases ps with | mk lst pim => rfl
  · rfl

/-- Witness for C4: a locked `text/plain` rejects a `type` assignment with
the immutability error, and `makeImmutable` produces the locked state. -/
theorem claim4_immutability_witness :
    MIMEType.step (MTOp.setType ("x".toList))
        (MIMEType.lock (MIMEType.mk ("text".toList) ("plain".toList)
          (MIMETypeParametersState.mk [] false) false)) = .error immutableMessage ∧
    MIMEType.step MTOp.makeImmutable
        (MIMEType.mk ("text".toList) ("plain".toList)
          (MIMETypeParametersState.mk [] false) false) =
      .ok (MIMEType.lock (MIMEType.mk ("text".toList) ("plain".toList)
        (MIMETypeParametersState.mk [] false) false)) :=
  ⟨(claim4_immutability
      (MIMEType.lock (MIMEType.mk ("text".toList) ("plain".toList)
        (MIMETypeParametersState.mk [] false) false))
      (MTOp.setType ("x".toList))
      (MIMEType.mk ("text".toList) ("plain".toList)
        (MIMETypeParametersState.mk [] false) false)).1 rfl rfl rfl,
   (claim4_immutability
      (MIMEType.mk ("text".toList) ("plain".toList)
        (MIMETypeParametersState.mk [] false) false)
      MTOp.makeImmutable
      (MIMEType.mk ("text".toList) ("plain".toList)
        (MIMETypeParametersState.mk [] false) false)).2.2.2.2.2⟩

/-! ## Fuel adequacy of the scan driver -/

/-- The fuel given to `scanLoopF` is irrelevant as soon as it exceeds the
input length: every iteration consumes at least one character (the `;` of
the match), so `scanParams`'s `length + 1` budget reproduces the unbounded
JavaScript loop exactly. -/
theorem scanLoopF_fuel_sufficient : ∀ fuel1 fuel2 l pos idx consumed acc,
    l.length < fuel1 → l.length < fuel2 →
    scanLoopF fuel1 l pos idx consumed acc = scanLoopF fuel2 l pos idx consumed acc := by
  intro fuel1
  induction fuel1 with
  | zero =>
    intro fuel2 l pos idx consumed acc h1 h2
    omega
  | succ f1 ih =>
    intro fuel2 l pos idx consumed acc h1 h2
    cases fuel2 with
    | zero => omega
    | succ f2 =>
      rw [scanLoopF, scanLoopF]
      cases hfm : findMatch l with
      | none => rfl
      | some mr =>
        obtain ⟨kv, sk, ml, rest⟩ := mr
        obtain ⟨hsum, hml⟩ := findMatch_spec hfm
        show scanLoopF f1 rest _ _ _ _ = scanLoopF f2 rest _ _ _ _
        exact ih f2 rest _ _ _ _ (by omega) (by omega)
